import Mathlib

/-!
# Cache simulator (csim.c): embedding and verified properties

Shallow embedding of `src/csim.c`.

* `mem_addr_t` is `unsigned long long`: a natural number, every left shift reduced
  modulo `2 ^ 64`.
* A C shift whose count is outside `[0, 64)` is undefined; `shl64` and `shr64` return
  `none` there, and so does every function that would read or write an array out of
  range.  `none` therefore stands for "the C program has no defined behaviour".
* `lastUsed` is an `int` of the cache state, over which the properties quantify.  Its
  `++` and `usedLines[1]+1` are computed on `Int` and reduced by `wrap32` to the 32-bit
  two's complement value: signed overflow is undefined in C, and this is what the
  compiled program writes (`INT_MAX + 1` becomes `INT_MIN`).
* The counters `hits`, `misses`, `evictions` are `int`s that `main` sets to zero and a
  call of `run` raises by one; they are integers (`Int`) without bound, their overflow
  needs more than `2 ^ 31 - 1` accesses.
* The shift counts and the loop bound `s`, `b`, `E` are natural numbers (a negative
  shift count is undefined in C); as `E` is an `int`, `E < 2 ^ 31`.
* `valid` is an `int` that the program only writes as 0 or 1 and only tests against
  zero: it is a `Bool`.  The `block` pointer of a line is never allocated, read or
  written and is left out.
* The heap arrays behind `cache.Sets` and `cacheSet.lines` are lists; a function that
  writes through a pointer returns the updated list.
* A `for` loop over `0 ≤ i < n` is a function recursive in the number of iterations
  left, with the loop variables as arguments.
* `initCache` is written in closed form; `initCacheLoops` follows its two loops and is
  proved equal to it.
* Of `main`, the required-argument check (`missingArgument`, `argumentCheck`, with
  `printUsage` and the uninitialised `trace_file`) and the `switch` of the trace loop
  (`dispatch`, `traceLoop`) are modelled; option parsing, `fscanf` and the printing of
  the summary are not.
-/

namespace CSim

/-- The cache parameters and the three counters (`cache_param_t`). -/
structure cache_param_t where
  s : Nat
  b : Nat
  E : Nat
  S : Nat
  B : Nat
  hits : Int
  misses : Int
  evictions : Int
deriving DecidableEq, Repr

/-- One cache line (`setLine`). -/
structure setLine where
  lastUsed : Int
  valid : Bool
  tag : Nat
deriving DecidableEq, Repr

/-- One cache set (`cacheSet`): the array `lines`. -/
structure cacheSet where
  lines : List setLine
deriving DecidableEq, Repr

/-- The cache (`cache`): the array `Sets`. -/
structure cache where
  Sets : List cacheSet
deriving DecidableEq, Repr

/-- Left shift of a 64-bit unsigned value; undefined for a count outside `[0, 64)`. -/
def shl64 (x : Nat) (n : Int) : Option Nat :=
  if 0 ≤ n ∧ n < 64 then some ((x <<< n.toNat) % 2 ^ 64) else none

/-- Right shift of a 64-bit unsigned value; undefined for a count outside `[0, 64)`. -/
def shr64 (x : Nat) (n : Int) : Option Nat :=
  if 0 ≤ n ∧ n < 64 then some (x >>> n.toNat) else none

/-- The function `initCache`: `sets` sets of `lines` lines, every line written with
`lastUsed = 0`, `valid = 0`, `tag = 0`.  The argument `blockSize` is not used. -/
def initCache (sets : Nat) (lines : Nat) (blockSize : Nat) : cache :=
  let _unused := blockSize
  ⟨List.replicate sets ⟨List.replicate lines ⟨0, false, 0⟩⟩⟩

/-- The loop of `nextEmptyLine` from index `i` with `n` iterations left. -/
def nextEmptyLineFrom (Cache : cacheSet) : Nat → Nat → Option Int
  | 0, _ => some (-1)
  | n + 1, i =>
    match Cache.lines[i]? with
    | none => none
    | some line =>
      if line.valid = false then some (i : Int)
      else nextEmptyLineFrom Cache n (i + 1)

/-- The function `nextEmptyLine`: index of the first invalid line, `-1` when there
is none. -/
def nextEmptyLine (Cache : cacheSet) (par : cache_param_t) : Option Int :=
  nextEmptyLineFrom Cache par.E 0

/-- The loop of `nextEvictLine` from index `li` with `n` iterations left; the state
is `minIndex`, `minUsed`, `maxUsed`. -/
def nextEvictLineFrom (Cache : cacheSet) :
    Nat → Nat → Nat → Int → Int → Option (Nat × Int × Int)
  | 0, _, minIndex, minUsed, maxUsed => some (minIndex, minUsed, maxUsed)
  | n + 1, li, minIndex, minUsed, maxUsed =>
    match Cache.lines[li]? with
    | none => none
    | some line =>
      let minIndex1 := if minUsed > line.lastUsed then li else minIndex
      let minUsed1 := if minUsed > line.lastUsed then line.lastUsed else minUsed
      let maxUsed1 := if maxUsed < line.lastUsed then line.lastUsed else maxUsed
      nextEvictLineFrom Cache n (li + 1) minIndex1 minUsed1 maxUsed1

/-- The function `nextEvictLine`: returns `(minIndex, usedLines[0], usedLines[1])`. -/
def nextEvictLine (Cache : cacheSet) (par : cache_param_t) : Option (Nat × Int × Int) :=
  match Cache.lines[0]? with
  | none => none
  | some l0 => nextEvictLineFrom Cache (par.E - 1) 1 0 l0.lastUsed l0.lastUsed

/-- The value an `int` holds after an arithmetic result `x` that may have left its
range: `x` reduced modulo `2 ^ 32` to `[-2 ^ 31, 2 ^ 31)`. -/
def wrap32 (x : Int) : Int := (x + 2147483648) % 4294967296 - 2147483648

/-- The hit scan of `run` from index `li` with `n` iterations left; the state is the
lines of the query set, `par.hits` and `cacheFull`. -/
def scanFrom (inputTag : Nat) :
    Nat → Nat → List setLine → Int → Bool → Option (List setLine × Int × Bool)
  | 0, _, ls, hits, cacheFull => some (ls, hits, cacheFull)
  | n + 1, li, ls, hits, cacheFull =>
    match ls[li]? with
    | none => none
    | some line =>
      if line.valid then
        if line.tag = inputTag then
          scanFrom inputTag n (li + 1)
            (ls.set li { line with lastUsed := wrap32 (line.lastUsed + 1) }) (hits + 1) cacheFull
        else scanFrom inputTag n (li + 1) ls hits cacheFull
      else if !line.valid && cacheFull then scanFrom inputTag n (li + 1) ls hits false
      else scanFrom inputTag n (li + 1) ls hits cacheFull

/-- The local `tagSize` of `run`: `64 - (par.s + par.b)`, an `int`. -/
def tagSize (par : cache_param_t) : Int := 64 - ((par.s : Int) + (par.b : Int))

/-- The local `inputTag` of `run`: `address >> (par.s + par.b)`. -/
def inputTag (par : cache_param_t) (address : Nat) : Option Nat :=
  shr64 address ((par.s : Int) + (par.b : Int))

/-- The local `si` of `run`: `(address << tagSize) >> (tagSize + par.b)`. -/
def setIndex (par : cache_param_t) (address : Nat) : Option Nat :=
  match shl64 address (tagSize par) with
  | none => none
  | some temp => shr64 temp (tagSize par + (par.b : Int))

/-- The miss handling of `run` (from `par.misses++` on) for the query set `ls`. -/
def runMiss (ls : List setLine) (par : cache_param_t) (tag : Nat) (cacheFull : Bool) :
    Option (cache_param_t × List setLine) :=
  let par1 := { par with misses := par.misses + 1 }
  match nextEvictLine ⟨ls⟩ par1 with
  | none => none
  | some (minIndex, _, maxUsed) =>
    if cacheFull then
      let par2 := { par1 with evictions := par1.evictions + 1 }
      match ls[minIndex]? with
      | none => none
      | some line =>
        some (par2,
          ls.set minIndex { line with tag := tag, lastUsed := wrap32 (maxUsed + 1) })
    else
      match nextEmptyLine ⟨ls⟩ par1 with
      | none => none
      | some emptyIndex =>
        if emptyIndex < 0 then none
        else
          match ls[emptyIndex.toNat]? with
          | none => none
          | some line =>
            some (par1, ls.set emptyIndex.toNat
              { line with tag := tag, valid := true, lastUsed := wrap32 (maxUsed + 1) })

/-- The function `run`: one access to `address`.  Returns the updated parameters and
the cache as left in memory. -/
def run (Cache : cache) (par : cache_param_t) (address : Nat) :
    Option (cache_param_t × cache) :=
  let prevHits := par.hits
  match inputTag par address, setIndex par address with
  | some tag, some si =>
    match Cache.Sets[si]? with
    | none => none
    | some querySet =>
      match scanFrom tag par.E 0 querySet.lines par.hits true with
      | none => none
      | some (ls, hits, cacheFull) =>
        let par1 := { par with hits := hits }
        if prevHits = par1.hits then
          match runMiss ls par1 tag cacheFull with
          | none => none
          | some (par2, ls2) => some (par2, ⟨Cache.Sets.set si ⟨ls2⟩⟩)
        else some (par1, ⟨Cache.Sets.set si ⟨ls⟩⟩)
  | _, _ => none

/-- Successive calls of `run` on a list of addresses. -/
def runAll (Cache : cache) (par : cache_param_t) : List Nat → Option (cache_param_t × cache)
  | [] => some (par, Cache)
  | a :: rest =>
    match run Cache par a with
    | none => none
    | some (par1, Cache1) => runAll Cache1 par1 rest

/-- One record of the trace as read by `fscanf`: the command character and the
address (the size is read and never used). -/
structure traceRec where
  traceCmd : Char
  address : Nat
deriving DecidableEq, Repr

/-- The `switch` of the trace loop in `main` for one record. -/
def dispatch (Cache : cache) (par : cache_param_t) (r : traceRec) :
    Option (cache_param_t × cache) :=
  if r.traceCmd = 'I' then some (par, Cache)
  else if r.traceCmd = 'L' then run Cache par r.address
  else if r.traceCmd = 'S' then run Cache par r.address
  else if r.traceCmd = 'M' then
    match run Cache par r.address with
    | none => none
    | some (par1, Cache1) => run Cache1 par1 r.address
  else some (par, Cache)

/-- The trace loop of `main` over the records read. -/
def traceLoop (Cache : cache) (par : cache_param_t) :
    List traceRec → Option (cache_param_t × cache)
  | [] => some (par, Cache)
  | r :: rest =>
    match dispatch Cache par r with
    | none => none
    | some (par1, Cache1) => traceLoop Cache1 par1 rest

/-- The parameter record as `main` has it before the trace loop: `bzero`, the three
options, and the counters set to zero. -/
def initPar (s b E : Nat) : cache_param_t :=
  { s := s, b := b, E := E, S := 0, B := 0, hits := 0, misses := 0, evictions := 0 }

/-! ## Predicates and values used in the statements -/

/-- A valid line holding tag `t`: the condition under which the scan of `run` counts a
hit. -/
def isHit (t : Nat) (l : setLine) : Bool := l.valid && decide (l.tag = t)

/-- What the scan of `run` does to one line: `lastUsed++` on a hit. -/
def bump (t : Nat) (l : setLine) : setLine :=
  if isHit t l then { l with lastUsed := wrap32 (l.lastUsed + 1) } else l

/-- Loop invariant of `nextEvictLine` after the lines below `li`: `mn` is the least
`lastUsed` among them, first reached at index `mi`, and `mx` is the greatest. -/
def EvictInv (ls : List setLine) (li mi : Nat) (mn mx : Int) : Prop :=
  mi < li ∧ (∃ l, ls[mi]? = some l ∧ l.lastUsed = mn) ∧
  (∀ j l, j < li → ls[j]? = some l → mn ≤ l.lastUsed) ∧
  (∀ j l, j < mi → ls[j]? = some l → mn < l.lastUsed) ∧
  (∀ j l, j < li → ls[j]? = some l → l.lastUsed ≤ mx) ∧
  (∃ j l, j < li ∧ ls[j]? = some l ∧ l.lastUsed = mx)

/-- A cache with `2 ^ s` sets of `E` lines each. -/
def Shape (s E : Nat) (c : cache) : Prop :=
  c.Sets.length = 2 ^ s ∧ ∀ set ∈ c.Sets, set.lines.length = E

/-- No two valid lines of a set hold the same tag. -/
def DistinctTags (ls : List setLine) : Prop :=
  ∀ (i j : Nat) (li lj : setLine), ls[i]? = some li → ls[j]? = some lj →
    li.valid = true → lj.valid = true → li.tag = lj.tag → i = j

/-- The invariant of the simulation: the shape, and distinct tags in every set. -/
def Inv (s E : Nat) (c : cache) : Prop :=
  Shape s E c ∧ ∀ set ∈ c.Sets, DistinctTags set.lines

instance (s E : Nat) (c : cache) : Decidable (Shape s E c) := by
  unfold Shape; infer_instance

/-- A cache state reached from `initCache(2^s, E)` by calls of `run` with the geometry
`s`, `b`, `E`. -/
def Reachable (s b E : Nat) (c : cache) : Prop :=
  ∃ (addrs : List Nat) (p : cache_param_t),
    runAll (initCache (2 ^ s) E (2 ^ b)) (initPar s b E) addrs = some (p, c)

/-- The cache that `run` leaves after the addresses 0 and 4 on the fresh cache of the
geometry `s = 1`, `b = 1`, `E = 2`: set 0 is full, set 1 is empty. -/
def exCache : cache :=
  ⟨[⟨[⟨1, true, 0⟩, ⟨2, true, 1⟩]⟩, ⟨[⟨0, false, 0⟩, ⟨0, false, 0⟩]⟩]⟩

/-- The line at index `k` of set `si`, when there is one. -/
def lineAt (c : cache) (si k : Nat) : Option setLine :=
  match c.Sets[si]? with
  | none => none
  | some qs => qs.lines[k]?

/-- The lines of a set of `E` lines after the tags `tags` were installed one after the
other into the empty set: line `i` holds `tags[i]` with `lastUsed = i + 1`. -/
def filledLines (E : Nat) (tags : List Nat) : List setLine :=
  (List.range E).map fun i =>
    if i < tags.length then ⟨(i : Int) + 1, true, tags.getD i 0⟩ else ⟨0, false, 0⟩

/-- One line of the reference simulator: the stamp of its last reference, the valid
flag and the tag. -/
structure specLine where
  stamp : Nat
  valid : Bool
  tag : Nat
deriving DecidableEq, Repr

/-- The reference true-LRU simulator: the sets, one counter that grows with every
access, and the three result counters. -/
structure specState where
  sets : List (List specLine)
  clock : Nat
  hits : Nat
  misses : Nat
  evictions : Nat
deriving DecidableEq, Repr

/-- The reference simulator on an empty cache of `2 ^ s` sets of `E` lines. -/
def specInit (s E : Nat) : specState :=
  ⟨List.replicate (2 ^ s) (List.replicate E ⟨0, false, 0⟩), 0, 0, 0, 0⟩

/-- Index of the line with the smallest stamp, the lowest index among equal stamps;
`best` and `bestStamp` are the candidate so far and `i` the index of the head. -/
def specOldestFrom : List specLine → Nat → Nat → Nat → Nat
  | [], _, best, _ => best
  | l :: rest, i, best, bestStamp =>
    if l.stamp < bestStamp then specOldestFrom rest (i + 1) i l.stamp
    else specOldestFrom rest (i + 1) best bestStamp

/-- Index of the least recently referenced line of a set. -/
def specOldest (set : List specLine) : Nat :=
  match set with
  | [] => 0
  | l :: rest => specOldestFrom rest 1 0 l.stamp

/-- One access of the reference simulator: the touched line is stamped with the global
counter on a hit, a fill and an eviction; a miss fills the lowest-index invalid line of
the set, and in a full set overwrites the line with the smallest stamp. -/
def specAccess (s b : Nat) (st : specState) (A : Nat) : specState :=
  let tag := A / 2 ^ (s + b)
  let si := (A / 2 ^ b) % 2 ^ s
  let set := st.sets.getD si []
  let now := st.clock + 1
  match set.findIdx? (fun l => l.valid && l.tag == tag) with
  | some i =>
    { st with sets := st.sets.set si (set.set i ⟨now, true, tag⟩), clock := now,
              hits := st.hits + 1 }
  | none =>
    match set.findIdx? (fun l => !l.valid) with
    | some i =>
      { st with sets := st.sets.set si (set.set i ⟨now, true, tag⟩), clock := now,
                misses := st.misses + 1 }
    | none =>
      { st with sets := st.sets.set si (set.set (specOldest set) ⟨now, true, tag⟩),
                clock := now, misses := st.misses + 1, evictions := st.evictions + 1 }

/-- The reference simulator on a sequence of addresses. -/
def specRun (s b : Nat) (st : specState) (addrs : List Nat) : specState :=
  addrs.foldl (specAccess s b) st

/-! ## The start of `main`, `initCache` loop by loop, further values -/

/-- The condition of the required-argument check of `main`,
`par.s == 0 || par.E == 0 || par.b == 0 || trace_file == NULL`, on the values that
`atoi` left in `par.s`, `par.E`, `par.b` and on the value that the pointer `trace_file`
has at the check (`none` for `NULL`, `some file` after `-t file`).  In `main` the check
stands before the call of `initCache`. -/
def missingArgument (s E b : Int) (trace_file : Option String) : Bool :=
  decide (s = 0) || decide (E = 0) || decide (b = 0) || trace_file.isNone

/-- The value of the local pointer `trace_file` at the check.  `main` declares it
without an initial value and writes it only in the case `'t'` of the option loop: after
`-t file` it points to the file name; without `-t` it was never written and holds
whatever the stack held (`uninit`), which need not be `NULL`. -/
def traceFileAtCheck (t_given uninit : Option String) : Option String :=
  match t_given with
  | some file => some file
  | none => uninit

/-- The function `printUsage`: prints the usage text and calls `exit(0)`, so it never
returns; `Except.error status` stands for the end of the program with that status. -/
def printUsage : Except Nat Unit := Except.error 0

/-- The required-argument check of `main` with its branch: when the condition holds,
the message is printed, `printUsage` is called, and `exit(1)` stands after the call.
`Except.error status` is the end of the program with that exit status, `Except.ok ()`
the arrival at the code after the check, where `initCache` is called. -/
def argumentCheck (s E b : Int) (trace_file : Option String) : Except Nat Unit :=
  if missingArgument s E b trace_file then
    match printUsage with
    | Except.error status => Except.error status
    | Except.ok _ => Except.error 1
  else Except.ok ()

/-- The inner loop of `initCache`: `acc` is the part of `set.lines` written so far and
`n` the number of iterations left; one iteration writes the line `lastUsed = 0`,
`valid = 0`, `tag = 0` at the next index. -/
def initLinesFrom : Nat → List setLine → List setLine
  | 0, acc => acc
  | n + 1, acc => initLinesFrom n (acc ++ [⟨0, false, 0⟩])

/-- The outer loop of `initCache`: `acc` is the part of `res.Sets` written so far and
`n` the number of iterations left; one iteration allocates the lines of the next set
and runs the inner loop on them. -/
def initSetsFrom (lines : Nat) : Nat → List cacheSet → List cacheSet
  | 0, acc => acc
  | n + 1, acc => initSetsFrom lines n (acc ++ [⟨initLinesFrom lines []⟩])

/-- The function `initCache` loop by loop; `initCache` above is its closed form. -/
def initCacheLoops (sets : Nat) (lines : Nat) (blockSize : Nat) : cache :=
  let _unused := blockSize
  ⟨initSetsFrom lines sets []⟩

/-- The number of valid lines of the whole cache. -/
def validLines (c : cache) : Nat :=
  (c.Sets.map (fun set => set.lines.countP (fun l => l.valid))).sum

/-- The first `n` addresses of the sequence that alternates between `A` and `B`,
starting with `A`. -/
def altSeq : Nat → Nat → Nat → List Nat
  | 0, _, _ => []
  | n + 1, A, B => A :: altSeq n B A

/-! ## The loops: hit scan, `nextEvictLine`, `nextEmptyLine` -/

theorem wrap32_of_range (x : Int) (h1 : -2147483648 ≤ x) (h2 : x < 2147483648) :
    wrap32 x = x := by
  unfold wrap32
  omega

theorem scanFrom_spec (t : Nat) : ∀ (post pre : List setLine) (h : Int) (cf : Bool),
    scanFrom t post.length pre.length (pre ++ post) h cf =
      some (pre ++ post.map (bump t), h + (post.countP (isHit t) : Nat),
        cf && post.all (fun l => l.valid)) := by
  intro post
  induction post with
  | nil => intro pre h cf; simp [scanFrom]
  | cons x xs ih =>
    intro pre h cf
    have hget : (pre ++ x :: xs)[pre.length]? = some x := by
      rw [List.getElem?_append_right (Nat.le_refl _)]; simp
    have hlen : ∀ y : setLine, pre.length + 1 = (pre ++ [y]).length := by simp
    have happ : ∀ y : setLine, pre ++ y :: xs = (pre ++ [y]) ++ xs := by simp
    simp only [List.length_cons, scanFrom, hget]
    by_cases hv : x.valid = true
    · by_cases ht : x.tag = t
      · have hh : isHit t x = true := by simp [isHit, hv, ht]
        have hset : (pre ++ x :: xs).set pre.length
              { x with lastUsed := wrap32 (x.lastUsed + 1) }
            = (pre ++ [{ x with lastUsed := wrap32 (x.lastUsed + 1) }]) ++ xs := by simp
        rw [if_pos hv, if_pos ht, hset,
          hlen { x with lastUsed := wrap32 (x.lastUsed + 1) }, ih]
        simp [bump, hh, hv, List.countP_cons]
        omega
      · have hh : isHit t x = false := by simp [isHit, hv, ht]
        rw [if_pos hv, if_neg ht, happ x, hlen x, ih]
        simp [bump, hh, hv, List.countP_cons]
    · have hh : isHit t x = false := by simp [isHit, hv]
      simp only [Bool.not_eq_true] at hv
      cases cf <;>
      · simp only [hv, Bool.false_eq_true, if_false, Bool.not_false, Bool.true_and,
          Bool.and_false, Bool.and_true, if_true]
        rw [happ x, hlen x, ih]
        simp [bump, hh, hv, List.countP_cons]

theorem nextEvictLineFrom_spec (ls : List setLine) : ∀ (n li mi : Nat) (mn mx : Int),
    li + n = ls.length → EvictInv ls li mi mn mx →
    ∃ r, nextEvictLineFrom ⟨ls⟩ n li mi mn mx = some r ∧
      EvictInv ls ls.length r.1 r.2.1 r.2.2 := by
  intro n
  induction n with
  | zero =>
    intro li mi mn mx hlen hinv
    have : li = ls.length := by omega
    subst this
    exact ⟨(mi, mn, mx), rfl, hinv⟩
  | succ n ih =>
    intro li mi mn mx hlen hinv
    have hlt : li < ls.length := by omega
    obtain ⟨line, hline⟩ : ∃ line, ls[li]? = some line :=
      ⟨ls[li], List.getElem?_eq_getElem hlt⟩
    simp only [nextEvictLineFrom, hline]
    apply ih _ _ _ _ (by omega)
    obtain ⟨h1, ⟨l0, hl0, hl0v⟩, h3, h4, h5, ⟨jm, lm, hjm, hlm, hlmv⟩⟩ := hinv
    have hstep : ∀ j l, j < li + 1 → ls[j]? = some l → j < li ∨ (j = li ∧ l = line) := by
      intro j l hj hl
      by_cases h : j < li
      · exact Or.inl h
      · have : j = li := by omega
        subst this
        rw [hline] at hl
        exact Or.inr ⟨rfl, (Option.some.inj hl).symm⟩
    refine ⟨?_, ?_, ?_, ?_, ?_, ?_⟩
    · split <;> omega
    · by_cases hc : mn > line.lastUsed
      · simp only [hc, if_true]; exact ⟨line, hline, rfl⟩
      · simp only [hc, if_false]; exact ⟨l0, hl0, hl0v⟩
    · intro j l hj hl
      rcases hstep j l hj hl with h | ⟨_, rfl⟩
      · have := h3 j l h hl
        split <;> omega
      · split <;> omega
    · intro j l hj hl
      by_cases hc : mn > line.lastUsed
      · simp only [hc, if_true] at hj ⊢
        have := h3 j l hj hl
        omega
      · simp only [hc, if_false] at hj ⊢
        exact h4 j l hj hl
    · intro j l hj hl
      rcases hstep j l hj hl with h | ⟨_, rfl⟩
      · have := h5 j l h hl
        split <;> omega
      · split <;> omega
    · by_cases hc : mx < line.lastUsed
      · simp only [hc, if_true]; exact ⟨li, line, by omega, hline, rfl⟩
      · simp only [hc, if_false]; exact ⟨jm, lm, by omega, hlm, hlmv⟩

theorem nextEvictLine_spec (ls : List setLine) (par : cache_param_t)
    (hE : 1 ≤ par.E) (hlen : ls.length = par.E) :
    ∃ r, nextEvictLine ⟨ls⟩ par = some r ∧ EvictInv ls ls.length r.1 r.2.1 r.2.2 := by
  obtain ⟨l0, hl0⟩ : ∃ l0, ls[0]? = some l0 :=
    ⟨ls[0], List.getElem?_eq_getElem (by omega)⟩
  simp only [nextEvictLine, hl0]
  apply nextEvictLineFrom_spec ls _ _ _ _ _ (by omega)
  refine ⟨by omega, ⟨l0, hl0, rfl⟩, ?_, ?_, ?_, ⟨0, l0, by omega, hl0, rfl⟩⟩
  · intro j l hj hl
    have : j = 0 := by omega
    subst this; rw [hl0] at hl; cases hl; exact le_refl _
  · intro j l hj; omega
  · intro j l hj hl
    have : j = 0 := by omega
    subst this; rw [hl0] at hl; cases hl; exact le_refl _

theorem nextEmptyLineFrom_spec (ls : List setLine) : ∀ (n li : Nat),
    li + n = ls.length → (∀ j l, j < li → ls[j]? = some l → l.valid = true) →
    ((∀ l ∈ ls, l.valid = true) ∧ nextEmptyLineFrom ⟨ls⟩ n li = some (-1)) ∨
    (∃ (k : Nat) (l : setLine), nextEmptyLineFrom ⟨ls⟩ n li = some (k : Int) ∧ ls[k]? = some l ∧
      l.valid = false ∧ ∀ j l, j < k → ls[j]? = some l → l.valid = true) := by
  intro n
  induction n with
  | zero =>
    intro li hlen hpre
    left
    refine ⟨?_, rfl⟩
    intro l hl
    obtain ⟨j, hj, rfl⟩ := List.getElem_of_mem hl
    exact hpre j _ (by omega) (List.getElem?_eq_getElem hj)
  | succ n ih =>
    intro li hlen hpre
    have hlt : li < ls.length := by omega
    obtain ⟨line, hline⟩ : ∃ line, ls[li]? = some line :=
      ⟨ls[li], List.getElem?_eq_getElem hlt⟩
    simp only [nextEmptyLineFrom, hline]
    by_cases hv : line.valid = false
    · right
      exact ⟨li, line, by simp [hv], hline, hv, hpre⟩
    · rw [if_neg hv]
      apply ih _ (by omega)
      intro j l hj hl
      by_cases h : j < li
      · exact hpre j l h hl
      · have : j = li := by omega
        subst this
        rw [hline] at hl; cases hl
        simpa using hv

/-! ## One call of `run` -/

theorem map_bump_of_no_hit (t : Nat) (ls : List setLine)
    (h : ls.countP (isHit t) = 0) : ls.map (bump t) = ls := by
  rw [List.countP_eq_zero] at h
  conv_rhs => rw [← List.map_id ls]
  apply List.map_congr_left
  intro l hl
  have := h l hl
  simp [bump, this]

theorem par_hits_eta (par : cache_param_t) : { par with hits := par.hits + ((0 : Nat) : Int) } = par := by
  cases par; simp

theorem run_of_target (Cache : cache) (par : cache_param_t) (A t si : Nat) (qs : cacheSet)
    (ht : inputTag par A = some t) (hsi : setIndex par A = some si)
    (hqs : Cache.Sets[si]? = some qs) (hlen : qs.lines.length = par.E) :
    run Cache par A =
      if qs.lines.countP (isHit t) = 0 then
        (runMiss qs.lines par t (qs.lines.all (fun l => l.valid))).map
          (fun r => (r.1, (⟨Cache.Sets.set si ⟨r.2⟩⟩ : cache)))
      else
        some ({ par with hits := par.hits + (qs.lines.countP (isHit t) : Nat) },
          ⟨Cache.Sets.set si ⟨qs.lines.map (bump t)⟩⟩) := by
  have hscan := scanFrom_spec t qs.lines [] par.hits true
  simp only [List.length_nil, List.nil_append, Bool.true_and, hlen] at hscan
  unfold run
  simp only [ht, hsi, hqs]
  rw [hscan]
  simp only []
  by_cases hc : qs.lines.countP (isHit t) = 0
  · have hpar : ({ par with hits := par.hits + ((qs.lines.countP (isHit t) : Nat) : Int) } :
        cache_param_t) = par := by rw [hc]; exact par_hits_eta par
    simp only [] at hpar
    simp only [hpar, map_bump_of_no_hit t _ hc]
    simp only [hc, Nat.cast_zero, add_zero, if_true]
    cases runMiss qs.lines par t (qs.lines.all fun l => l.valid) <;> rfl
  · rw [if_neg hc, if_neg]
    intro h
    apply hc
    have : ((List.countP (isHit t) qs.lines : Nat) : Int) = 0 := by omega
    exact_mod_cast this

theorem runMiss_full (ls : List setLine) (par : cache_param_t) (t : Nat)
    (hE : 1 ≤ par.E) (hlen : ls.length = par.E) :
    ∃ (k : Nat) (lk : setLine) (mx : Int), EvictInv ls ls.length k lk.lastUsed mx ∧
      ls[k]? = some lk ∧
      runMiss ls par t true =
        some ({ par with misses := par.misses + 1, evictions := par.evictions + 1 },
          ls.set k { lk with tag := t, lastUsed := wrap32 (mx + 1) }) := by
  obtain ⟨⟨k, mn, mx⟩, hr, hinv⟩ :=
    nextEvictLine_spec ls { par with misses := par.misses + 1 } hE hlen
  obtain ⟨lk, hlk, hlkv⟩ := hinv.2.1
  simp only at hlk hlkv hinv
  refine ⟨k, lk, mx, by rw [hlkv]; exact hinv, hlk, ?_⟩
  simp only [runMiss, hr, hlk, if_true]

theorem runMiss_fill (ls : List setLine) (par : cache_param_t) (t : Nat)
    (hE : 1 ≤ par.E) (hlen : ls.length = par.E) (hinv : ∃ l ∈ ls, l.valid = false) :
    ∃ (k : Nat) (lk : setLine) (mi : Nat) (mn mx : Int), EvictInv ls ls.length mi mn mx ∧
      ls[k]? = some lk ∧ lk.valid = false ∧
      (∀ j l, j < k → ls[j]? = some l → l.valid = true) ∧
      runMiss ls par t false =
        some ({ par with misses := par.misses + 1 },
          ls.set k { lk with tag := t, valid := true, lastUsed := wrap32 (mx + 1) }) := by
  obtain ⟨⟨mi, mn, mx⟩, hr, hev⟩ :=
    nextEvictLine_spec ls { par with misses := par.misses + 1 } hE hlen
  have hempty := nextEmptyLineFrom_spec ls par.E 0 (by omega) (by intro j l hj; omega)
  rcases hempty with ⟨hall, _⟩ | ⟨k, lk, hk, hlk, hlkv, hfirst⟩
  · obtain ⟨l, hl, hlv⟩ := hinv
    rw [hall l hl] at hlv
    exact absurd hlv (by simp)
  · refine ⟨k, lk, mi, mn, mx, hev, hlk, hlkv, hfirst, ?_⟩
    have hk2 : nextEmptyLine ⟨ls⟩ { par with misses := par.misses + 1 } = some (k : Int) := hk
    simp only [runMiss, hr, hk2, Bool.false_eq_true, if_false]
    rw [if_neg (by omega)]
    simp only [Int.toNat_ofNat, hlk]

theorem inputTag_eq (par : cache_param_t) (A : Nat) (hsb : par.s + par.b ≤ 63) :
    inputTag par A = some (A / 2 ^ (par.s + par.b)) := by
  simp only [inputTag, shr64]
  rw [if_pos (by omega)]
  have h1 : ((par.s : Int) + (par.b : Int)).toNat = par.s + par.b := by omega
  rw [h1, Nat.shiftRight_eq_div_pow]

theorem setIndex_eq (par : cache_param_t) (A : Nat) (hs : 1 ≤ par.s) (hsb : par.s + par.b ≤ 63) :
    setIndex par A = some ((A / 2 ^ par.b) % 2 ^ par.s) := by
  simp only [setIndex, shl64, shr64, tagSize]
  rw [if_pos (by omega)]
  simp only []
  rw [if_pos (by omega)]
  have h1 : ((64 : Int) - ((par.s : Int) + (par.b : Int))).toNat = 64 - (par.s + par.b) := by
    omega
  have h2 : ((64 : Int) - ((par.s : Int) + (par.b : Int)) + (par.b : Int)).toNat
      = 64 - par.s := by omega
  rw [h1, h2, Nat.shiftLeft_eq, Nat.shiftRight_eq_div_pow]
  congr 1
  have e64 : 2 ^ 64 = 2 ^ (par.s + par.b) * 2 ^ (64 - (par.s + par.b)) := by
    rw [← pow_add]; congr 1; omega
  have e2 : 2 ^ (64 - par.s) = 2 ^ (64 - (par.s + par.b)) * 2 ^ par.b := by
    rw [← pow_add]; congr 1; omega
  rw [e64, Nat.mul_mod_mul_right, e2, ← Nat.div_div_eq_div_mul,
    Nat.mul_div_cancel _ (by positivity), pow_add, Nat.mul_comm (2 ^ par.s) (2 ^ par.b),
    Nat.mod_mul_right_div_self]

theorem target_exists (Cache : cache) (par : cache_param_t) (A : Nat)
    (hs : 1 ≤ par.s) (hsb : par.s + par.b ≤ 63) (hshape : Shape par.s par.E Cache) :
    ∃ t si qs, inputTag par A = some t ∧ setIndex par A = some si ∧
      Cache.Sets[si]? = some qs ∧ qs.lines.length = par.E := by
  have hlt : (A / 2 ^ par.b) % 2 ^ par.s < Cache.Sets.length := by
    rw [hshape.1]; exact Nat.mod_lt _ (by positivity)
  refine ⟨_, _, Cache.Sets[(A / 2 ^ par.b) % 2 ^ par.s], inputTag_eq par A hsb,
    setIndex_eq par A hs hsb, List.getElem?_eq_getElem hlt, ?_⟩
  exact hshape.2 _ (List.getElem_mem _)

theorem run_cases (Cache : cache) (par : cache_param_t) (A t si : Nat) (qs : cacheSet)
    (hE : 1 ≤ par.E) (ht : inputTag par A = some t) (hsi : setIndex par A = some si)
    (hqs : Cache.Sets[si]? = some qs) (hlen : qs.lines.length = par.E) :
    (0 < qs.lines.countP (isHit t) ∧
      run Cache par A =
        some ({ par with hits := par.hits + (qs.lines.countP (isHit t) : Nat) },
          ⟨Cache.Sets.set si ⟨qs.lines.map (bump t)⟩⟩)) ∨
    (qs.lines.countP (isHit t) = 0 ∧ (∀ l ∈ qs.lines, l.valid = true) ∧
      ∃ (k : Nat) (lk : setLine) (mx : Int),
        EvictInv qs.lines qs.lines.length k lk.lastUsed mx ∧ qs.lines[k]? = some lk ∧
        run Cache par A =
          some ({ par with misses := par.misses + 1, evictions := par.evictions + 1 },
            ⟨Cache.Sets.set si
              ⟨qs.lines.set k { lk with tag := t, lastUsed := wrap32 (mx + 1) }⟩⟩)) ∨
    (qs.lines.countP (isHit t) = 0 ∧
      ∃ (k : Nat) (lk : setLine) (mi : Nat) (mn mx : Int),
        EvictInv qs.lines qs.lines.length mi mn mx ∧ qs.lines[k]? = some lk ∧
        lk.valid = false ∧ (∀ j l, j < k → qs.lines[j]? = some l → l.valid = true) ∧
        run Cache par A =
          some ({ par with misses := par.misses + 1 },
            ⟨Cache.Sets.set si
              ⟨qs.lines.set k
                { lk with tag := t, valid := true, lastUsed := wrap32 (mx + 1) }⟩⟩)) := by
  have hrun := run_of_target Cache par A t si qs ht hsi hqs hlen
  by_cases hc : qs.lines.countP (isHit t) = 0
  · rw [if_pos hc] at hrun
    right
    by_cases hall : ∀ l ∈ qs.lines, l.valid = true
    · left
      have hb : (qs.lines.all fun l => l.valid) = true := by
        rw [List.all_eq_true]; exact hall
      obtain ⟨k, lk, mx, hev, hlk, hm⟩ := runMiss_full qs.lines par t hE hlen
      rw [hb, hm] at hrun
      exact ⟨hc, hall, k, lk, mx, hev, hlk, hrun⟩
    · right
      have hb : (qs.lines.all fun l => l.valid) = false := by
        rw [Bool.eq_false_iff]; intro h; rw [List.all_eq_true] at h; exact hall h
      have hex : ∃ l ∈ qs.lines, l.valid = false := by
        push_neg at hall
        obtain ⟨l, hl, hv⟩ := hall
        exact ⟨l, hl, by simpa using hv⟩
      obtain ⟨k, lk, mi, mn, mx, hev, hlk, hlkv, hfirst, hm⟩ :=
        runMiss_fill qs.lines par t hE hlen hex
      rw [hb, hm] at hrun
      exact ⟨hc, k, lk, mi, mn, mx, hev, hlk, hlkv, hfirst, hrun⟩
  · rw [if_neg hc] at hrun
    exact Or.inl ⟨Nat.pos_of_ne_zero hc, hrun⟩

/-! ## The invariant: shape and distinct tags -/

theorem no_hit_get (t : Nat) (ls : List setLine) (h : ls.countP (isHit t) = 0)
    (j : Nat) (lj : setLine) (hj : ls[j]? = some lj) (hv : lj.valid = true) : lj.tag ≠ t := by
  rw [List.countP_eq_zero] at h
  have hm : lj ∈ ls := List.getElem?_mem hj
  have := h lj hm
  intro ht
  apply this
  simp [isHit, hv, ht]

theorem distinctTags_map_bump (t : Nat) (ls : List setLine) (h : DistinctTags ls) :
    DistinctTags (ls.map (bump t)) := by
  intro i j li lj hi hj hvi hvj htag
  rw [List.getElem?_map] at hi hj
  obtain ⟨li0, hli0, rfl⟩ := Option.map_eq_some'.1 hi
  obtain ⟨lj0, hlj0, rfl⟩ := Option.map_eq_some'.1 hj
  have hb : ∀ l : setLine, (bump t l).valid = l.valid ∧ (bump t l).tag = l.tag := by
    intro l; unfold bump; split <;> simp
  rw [(hb li0).1] at hvi
  rw [(hb lj0).1] at hvj
  rw [(hb li0).2, (hb lj0).2] at htag
  exact h i j li0 lj0 hli0 hlj0 hvi hvj htag

theorem distinctTags_set (t : Nat) (ls : List setLine) (h : DistinctTags ls)
    (hc : ls.countP (isHit t) = 0) (k : Nat) (x : setLine) (hx : x.tag = t) :
    DistinctTags (ls.set k x) := by
  intro i j li lj hi hj hvi hvj htag
  rw [List.getElem?_set] at hi hj
  by_cases hki : k = i
  · by_cases hkj : k = j
    · omega
    · rw [if_neg hkj] at hj
      rw [if_pos hki] at hi
      split at hi
      · cases hi
        exact absurd (htag ▸ hx) (no_hit_get t ls hc j lj hj hvj)
      · cases hi
  · rw [if_neg hki] at hi
    by_cases hkj : k = j
    · rw [if_pos hkj] at hj
      split at hj
      · cases hj
        exact absurd (htag.symm ▸ hx) (no_hit_get t ls hc i li hi hvi)
      · cases hj
    · rw [if_neg hkj] at hj
      exact h i j li lj hi hj hvi hvj htag

theorem inv_set (s E : Nat) (c : cache) (si : Nat) (ls : List setLine)
    (hinv : Inv s E c) (hlen : ls.length = E) (hd : DistinctTags ls) :
    Inv s E ⟨c.Sets.set si ⟨ls⟩⟩ := by
  refine ⟨⟨?_, ?_⟩, ?_⟩
  · simp only [List.length_set]; exact hinv.1.1
  · intro set hset
    rcases List.mem_or_eq_of_mem_set hset with h | h
    · exact hinv.1.2 set h
    · subst h; exact hlen
  · intro set hset
    rcases List.mem_or_eq_of_mem_set hset with h | h
    · exact hinv.2 set h
    · subst h; exact hd

theorem run_inv (Cache : cache) (par : cache_param_t) (A : Nat)
    (hs : 1 ≤ par.s) (hsb : par.s + par.b ≤ 63) (hE : 1 ≤ par.E)
    (hinv : Inv par.s par.E Cache) :
    ∃ par1 Cache1, run Cache par A = some (par1, Cache1) ∧ Inv par.s par.E Cache1 ∧
      par1.s = par.s ∧ par1.b = par.b ∧ par1.E = par.E := by
  obtain ⟨t, si, qs, ht, hsi, hqs, hlen⟩ := target_exists Cache par A hs hsb hinv.1
  have hd : DistinctTags qs.lines := hinv.2 qs (List.getElem?_mem hqs)
  rcases run_cases Cache par A t si qs hE ht hsi hqs hlen with
    ⟨_, hr⟩ | ⟨hc, _, k, lk, mx, _, hlk, hr⟩ | ⟨hc, k, lk, mi, mn, mx, _, hlk, _, _, hr⟩
  · refine ⟨_, _, hr, inv_set _ _ _ _ _ hinv ?_ (distinctTags_map_bump t _ hd), rfl, rfl, rfl⟩
    simp [hlen]
  · refine ⟨_, _, hr, inv_set _ _ _ _ _ hinv ?_ (distinctTags_set t _ hd hc k _ rfl),
      rfl, rfl, rfl⟩
    simp [hlen]
  · refine ⟨_, _, hr, inv_set _ _ _ _ _ hinv ?_ (distinctTags_set t _ hd hc k _ rfl),
      rfl, rfl, rfl⟩
    simp [hlen]

theorem runAll_inv : ∀ (as : List Nat) (Cache : cache) (par : cache_param_t),
    1 ≤ par.s → par.s + par.b ≤ 63 → 1 ≤ par.E → Inv par.s par.E Cache →
    ∃ par1 Cache1, runAll Cache par as = some (par1, Cache1) ∧ Inv par.s par.E Cache1 ∧
      par1.s = par.s ∧ par1.b = par.b ∧ par1.E = par.E := by
  intro as
  induction as with
  | nil => intro Cache par _ _ _ hinv; exact ⟨par, Cache, rfl, hinv, rfl, rfl, rfl⟩
  | cons a rest ih =>
    intro Cache par hs hsb hE hinv
    obtain ⟨p1, c1, hr, hinv1, e1, e2, e3⟩ := run_inv Cache par a hs hsb hE hinv
    have := ih c1 p1 (by omega) (by omega) (by omega) (by rw [e1, e3]; exact hinv1)
    obtain ⟨p2, c2, hr2, hinv2, f1, f2, f3⟩ := this
    refine ⟨p2, c2, ?_, ?_, by omega, by omega, by omega⟩
    · show (match run Cache par a with | none => none | some (par1, Cache1) => runAll Cache1 par1 rest) = _
      rw [hr]; exact hr2
    · rw [← e1, ← e3]; exact hinv2

theorem initCache_inv (s E B : Nat) : Inv s E (initCache (2 ^ s) E B) := by
  refine ⟨⟨by simp [initCache], ?_⟩, ?_⟩
  · intro set hset
    simp only [initCache] at hset
    rw [List.eq_of_mem_replicate hset]; simp
  · intro set hset
    simp only [initCache] at hset
    rw [List.eq_of_mem_replicate hset]
    intro i j li lj hi hj hvi
    have : li ∈ List.replicate E (⟨0, false, 0⟩ : setLine) := List.getElem?_mem hi
    rw [List.eq_of_mem_replicate this] at hvi
    cases hvi

theorem runAll_cons (Cache : cache) (par : cache_param_t) (a : Nat) (rest : List Nat)
    (p1 : cache_param_t) (c1 : cache) (hr : run Cache par a = some (p1, c1)) :
    runAll Cache par (a :: rest) = runAll c1 p1 rest := by
  show (match run Cache par a with
    | none => none
    | some (par1, Cache1) => runAll Cache1 par1 rest) = _
  rw [hr]

theorem shape_set (s E : Nat) (c : cache) (si : Nat) (ls : List setLine)
    (h : Shape s E c) (hlen : ls.length = E) : Shape s E ⟨c.Sets.set si ⟨ls⟩⟩ := by
  refine ⟨?_, ?_⟩
  · simp only [List.length_set]; exact h.1
  · intro set hset
    rcases List.mem_or_eq_of_mem_set hset with h1 | h1
    · exact h.2 set h1
    · subst h1; exact hlen

theorem run_step (Cache : cache) (par : cache_param_t) (A : Nat)
    (hs : 1 ≤ par.s) (hsb : par.s + par.b ≤ 63) (hE : 1 ≤ par.E)
    (hshape : Shape par.s par.E Cache) :
    ∃ par1 Cache1, run Cache par A = some (par1, Cache1) ∧ Shape par.s par.E Cache1 ∧
      par1.s = par.s ∧ par1.b = par.b ∧ par1.E = par.E ∧
      par.hits ≤ par1.hits ∧
      ((par1.misses = par.misses ∧ par1.evictions = par.evictions) ∨
       (par1.misses = par.misses + 1 ∧ par1.hits = par.hits ∧
         (par1.evictions = par.evictions ∨ par1.evictions = par.evictions + 1))) := by
  obtain ⟨t, si, qs, ht, hsi, hqs, hlen⟩ := target_exists Cache par A hs hsb hshape
  rcases run_cases Cache par A t si qs hE ht hsi hqs hlen with
    ⟨_, hr⟩ | ⟨hc, _, k, lk, mx, _, hlk, hr⟩ | ⟨hc, k, lk, mi, mn, mx, _, hlk, _, _, hr⟩
  · refine ⟨_, _, hr, shape_set _ _ _ _ _ hshape (by simp [hlen]), rfl, rfl, rfl, ?_,
      Or.inl ⟨rfl, rfl⟩⟩
    simp
  · refine ⟨_, _, hr, shape_set _ _ _ _ _ hshape (by simp [hlen]), rfl, rfl, rfl, ?_,
      Or.inr ⟨rfl, rfl, Or.inr rfl⟩⟩
    simp
  · refine ⟨_, _, hr, shape_set _ _ _ _ _ hshape (by simp [hlen]), rfl, rfl, rfl, ?_,
      Or.inr ⟨rfl, rfl, Or.inl rfl⟩⟩
    simp

theorem count_hit_le_one (t : Nat) : ∀ (ls : List setLine), DistinctTags ls →
    ls.countP (isHit t) ≤ 1 := by
  intro ls
  induction ls with
  | nil => intro _; simp
  | cons x xs ih =>
    intro hd
    have hd1 : DistinctTags xs := by
      intro i j li lj hi hj hvi hvj htag
      have := hd (i + 1) (j + 1) li lj (by simpa using hi) (by simpa using hj) hvi hvj htag
      omega
    by_cases hx : isHit t x = true
    · have hz : xs.countP (isHit t) = 0 := by
        rw [List.countP_eq_zero]
        intro y hy hyh
        obtain ⟨j, hj⟩ := List.getElem?_of_mem hy
        simp only [isHit, Bool.and_eq_true, decide_eq_true_eq] at hx hyh
        have := hd 0 (j + 1) x y (by simp) (by simpa using hj) hx.1 hyh.1
          (by rw [hx.2, hyh.2])
        omega
      rw [List.countP_cons_of_pos _ _ hx, hz]
    · rw [List.countP_cons_of_neg _ _ hx]
      exact ih hd1

theorem map_bump_eq_set (t : Nat) (ls : List setLine) (hd : DistinctTags ls)
    (k : Nat) (lk : setLine) (hk : ls[k]? = some lk) (hv : lk.valid = true) (ht : lk.tag = t) :
    ls.map (bump t) = ls.set k { lk with lastUsed := wrap32 (lk.lastUsed + 1) } := by
  apply List.ext_getElem?
  intro j
  rw [List.getElem?_map, List.getElem?_set]
  by_cases hkj : k = j
  · subst hkj
    have hlt : k < ls.length := by
      by_contra h
      rw [List.getElem?_eq_none (by omega)] at hk
      cases hk
    rw [if_pos rfl, if_pos hlt, hk]
    simp [bump, isHit, hv, ht]
  · rw [if_neg hkj]
    cases hj : ls[j]? with
    | none => rfl
    | some lj =>
      simp only [Option.map_some']
      congr 1
      unfold bump
      rw [if_neg]
      intro hh
      simp only [isHit, Bool.and_eq_true, decide_eq_true_eq] at hh
      exact hkj (hd k j lk lj hk hj hv hh.1 (by rw [ht, hh.2]))

theorem reachable_inv (s b E : Nat) (c : cache) (hs : 1 ≤ s) (hsb : s + b ≤ 63) (hE : 1 ≤ E)
    (h : Reachable s b E c) : Inv s E c := by
  obtain ⟨addrs, p, hrun⟩ := h
  obtain ⟨p1, c1, hr, hinv, _⟩ :=
    runAll_inv addrs (initCache (2 ^ s) E (2 ^ b)) (initPar s b E) hs hsb hE
      (initCache_inv s E (2 ^ b))
  rw [hr] at hrun
  cases hrun
  exact hinv

/-! ## Address decomposition, miss in a full set, miss in a set with room -/

/-- C10: for `s ≥ 1` and `s + b ≤ 63` the tag computed by `run` is `A / 2^(s+b)` and the
set index computed by `run` (shift left by `64-(s+b)`, truncate to 64 bits, shift right
by `64-(s+b)+b`) is `(A / 2^b) mod 2^s`; both shifts are defined. -/
theorem C10_address_decomposition (par : cache_param_t) (A : Nat)
    (hs : 1 ≤ par.s) (hsb : par.s + par.b ≤ 63) :
    inputTag par A = some (A / 2 ^ (par.s + par.b)) ∧
    setIndex par A = some ((A / 2 ^ par.b) % 2 ^ par.s) :=
  ⟨inputTag_eq par A hsb, setIndex_eq par A hs hsb⟩

theorem C10_address_decomposition_witness :
    (1 ≤ (initPar 4 5 2).s ∧ (initPar 4 5 2).s + (initPar 4 5 2).b ≤ 63) ∧
    inputTag (initPar 4 5 2) 0xFFFFFFFFFFFFABCD = some (0xFFFFFFFFFFFFABCD / 2 ^ (4 + 5)) ∧
    setIndex (initPar 4 5 2) 0xFFFFFFFFFFFFABCD = some ((0xFFFFFFFFFFFFABCD / 2 ^ 5) % 2 ^ 4) :=
  ⟨by decide, C10_address_decomposition (initPar 4 5 2) 0xFFFFFFFFFFFFABCD (by decide) (by decide)⟩

/-- C3, counterexample: geometry `s = 1`, `b = 1`, `E = 2`; set 0 is full and its line 0
has `lastUsed = INT_MAX`.  The miss of address 8 overwrites line 1, and
`usedLines[1] + 1` leaves the range of `int`: the line gets `lastUsed = INT_MIN`, which
is not greater than the `lastUsed` of line 0 but the least value there is. -/
theorem C3_new_lastUsed_wraps :
    Shape 1 2
      ⟨[⟨[⟨2147483647, true, 0⟩, ⟨5, true, 1⟩]⟩, ⟨[⟨0, false, 0⟩, ⟨0, false, 0⟩]⟩]⟩ ∧
    inputTag (initPar 1 1 2) 8 = some 2 ∧ setIndex (initPar 1 1 2) 8 = some 0 ∧
    run ⟨[⟨[⟨2147483647, true, 0⟩, ⟨5, true, 1⟩]⟩, ⟨[⟨0, false, 0⟩, ⟨0, false, 0⟩]⟩]⟩
        (initPar 1 1 2) 8 =
      some ({ initPar 1 1 2 with misses := 1, evictions := 1 },
        ⟨[⟨[⟨2147483647, true, 0⟩, ⟨-2147483648, true, 2⟩]⟩,
          ⟨[⟨0, false, 0⟩, ⟨0, false, 0⟩]⟩]⟩) ∧
    (lineAt ⟨[⟨[⟨2147483647, true, 0⟩, ⟨-2147483648, true, 2⟩]⟩,
        ⟨[⟨0, false, 0⟩, ⟨0, false, 0⟩]⟩]⟩ 0 1).map (fun l => l.lastUsed) =
      some (-2147483648) ∧
    (lineAt ⟨[⟨[⟨2147483647, true, 0⟩, ⟨-2147483648, true, 2⟩]⟩,
        ⟨[⟨0, false, 0⟩, ⟨0, false, 0⟩]⟩]⟩ 0 0).map (fun l => l.lastUsed) =
      some 2147483647 := by
  decide

/-- C3, amended: a miss in a full set, in a cache of `2 ^ s` sets of `E ≥ 1` lines.  With
`t`, `si`, `qs` the tag, the set index and the target set that `run` computes (for
`s ≥ 1` and `s + b ≤ 63` they exist, `target_exists`): when no valid line of `qs` holds
`t` and every line of `qs` is valid, `run` returns with `misses` and `evictions` one
higher and `hits` (and the geometry) unchanged, and the cache differs from the old one
in exactly one line `k` of the target set: `k` has the least `lastUsed` of the set and
is the lowest such index; the line becomes `(newUsed, valid, t)`; and when every
`lastUsed` of the set is an `int` below `INT_MAX`, `newUsed` is strictly greater than
the `lastUsed` of every other line of the set. -/
theorem C3_miss_in_full_set (Cache : cache) (par : cache_param_t) (A t si : Nat)
    (qs : cacheSet) (hE : 1 ≤ par.E) (hshape : Shape par.s par.E Cache)
    (ht : inputTag par A = some t) (hsi : setIndex par A = some si)
    (hqs : Cache.Sets[si]? = some qs)
    (hmiss : ∀ l ∈ qs.lines, l.valid = true → l.tag ≠ t)
    (hfull : ∀ l ∈ qs.lines, l.valid = true) :
    ∃ (k : Nat) (lk : setLine) (newUsed : Int),
      qs.lines[k]? = some lk ∧
      (∀ (j : Nat) (l : setLine), qs.lines[j]? = some l → lk.lastUsed ≤ l.lastUsed) ∧
      (∀ (j : Nat) (l : setLine), j < k → qs.lines[j]? = some l → lk.lastUsed < l.lastUsed) ∧
      ((∀ l ∈ qs.lines, -2147483648 ≤ l.lastUsed ∧ l.lastUsed < 2147483647) →
        ∀ (j : Nat) (l : setLine), j ≠ k → qs.lines[j]? = some l → l.lastUsed < newUsed) ∧
      run Cache par A =
        some ({ par with misses := par.misses + 1, evictions := par.evictions + 1 },
          ⟨Cache.Sets.set si ⟨qs.lines.set k ⟨newUsed, true, t⟩⟩⟩) := by
  have hlen : qs.lines.length = par.E := hshape.2 qs (List.getElem?_mem hqs)
  have hcount : qs.lines.countP (isHit t) = 0 := by
    rw [List.countP_eq_zero]
    intro l hl hh
    simp only [isHit, Bool.and_eq_true, decide_eq_true_eq] at hh
    exact hmiss l hl hh.1 hh.2
  have hbound : ∀ (j : Nat) (l : setLine), qs.lines[j]? = some l → j < qs.lines.length := by
    intro j l hj
    by_contra h
    rw [List.getElem?_eq_none (by omega)] at hj
    cases hj
  rcases run_cases Cache par A t si qs hE ht hsi hqs hlen with
    ⟨hpos, _⟩ | ⟨_, _, k, lk, mx, hev, hlk, hr⟩ | ⟨_, k, lk, _, _, _, _, hlk, hlkv, _, _⟩
  · omega
  · obtain ⟨_, _, hmin, hfirst, hmax, ⟨jm, lm, _, hlm, hlmv⟩⟩ := hev
    refine ⟨k, lk, wrap32 (mx + 1), hlk, ?_, hfirst, ?_, ?_⟩
    · intro j l hj; exact hmin j l (hbound j l hj) hj
    · intro hrange j l _ hj
      have h1 := hmax j l (hbound j l hj) hj
      have h2 := hrange lm (List.getElem?_mem hlm)
      rw [wrap32_of_range (mx + 1) (by omega) (by omega)]
      omega
    · rw [hr]
      have hv : lk.valid = true := hfull lk (List.getElem?_mem hlk)
      have : ({ lk with tag := t, lastUsed := wrap32 (mx + 1) } : setLine) =
          ⟨wrap32 (mx + 1), true, t⟩ := by
        rw [← hv]
      rw [this]
  · rw [hfull lk (List.getElem?_mem hlk)] at hlkv
    cases hlkv

/-- C4, counterexample: geometry `s = 1`, `b = 1`, `E = 2`; line 0 of set 0 is valid with
`lastUsed = INT_MAX`, line 1 is invalid.  The miss of address 8 fills line 1, and
`usedLines[1] + 1` leaves the range of `int`: the line gets `lastUsed = INT_MIN`, which
is not greater than the `lastUsed` of line 0. -/
theorem C4_new_lastUsed_wraps :
    Shape 1 2
      ⟨[⟨[⟨2147483647, true, 0⟩, ⟨0, false, 0⟩]⟩, ⟨[⟨0, false, 0⟩, ⟨0, false, 0⟩]⟩]⟩ ∧
    inputTag (initPar 1 1 2) 8 = some 2 ∧ setIndex (initPar 1 1 2) 8 = some 0 ∧
    run ⟨[⟨[⟨2147483647, true, 0⟩, ⟨0, false, 0⟩]⟩, ⟨[⟨0, false, 0⟩, ⟨0, false, 0⟩]⟩]⟩
        (initPar 1 1 2) 8 =
      some ({ initPar 1 1 2 with misses := 1 },
        ⟨[⟨[⟨2147483647, true, 0⟩, ⟨-2147483648, true, 2⟩]⟩,
          ⟨[⟨0, false, 0⟩, ⟨0, false, 0⟩]⟩]⟩) ∧
    (lineAt ⟨[⟨[⟨2147483647, true, 0⟩, ⟨-2147483648, true, 2⟩]⟩,
        ⟨[⟨0, false, 0⟩, ⟨0, false, 0⟩]⟩]⟩ 0 1).map (fun l => l.lastUsed) =
      some (-2147483648) ∧
    (lineAt ⟨[⟨[⟨2147483647, true, 0⟩, ⟨-2147483648, true, 2⟩]⟩,
        ⟨[⟨0, false, 0⟩, ⟨0, false, 0⟩]⟩]⟩ 0 0).map (fun l => l.lastUsed) =
      some 2147483647 := by
  decide

/-- C4, amended: a miss in a set with an invalid line, in a cache of `2 ^ s` sets of
`E ≥ 1` lines.  With `t`, `si`, `qs` the tag, the set index and the target set that
`run` computes (for `s ≥ 1` and `s + b ≤ 63` they exist, `target_exists`): when no valid
line of `qs` holds `t` and some line of `qs` is invalid, `run` returns with `misses` one
higher and `hits`, `evictions` (and the geometry) unchanged, and the cache differs from
the old one in exactly one line `k` of the target set: `k` is the lowest index of an
invalid line; the line becomes `(newUsed, valid, t)`; and when every `lastUsed` of the
set is an `int` below `INT_MAX`, `newUsed` is strictly greater than the `lastUsed` of
every other line of the set. -/
theorem C4_miss_fills_first_invalid (Cache : cache) (par : cache_param_t) (A t si : Nat)
    (qs : cacheSet) (hE : 1 ≤ par.E) (hshape : Shape par.s par.E Cache)
    (ht : inputTag par A = some t) (hsi : setIndex par A = some si)
    (hqs : Cache.Sets[si]? = some qs)
    (hmiss : ∀ l ∈ qs.lines, l.valid = true → l.tag ≠ t)
    (hfree : ∃ l ∈ qs.lines, l.valid = false) :
    ∃ (k : Nat) (lk : setLine) (newUsed : Int),
      qs.lines[k]? = some lk ∧ lk.valid = false ∧
      (∀ (j : Nat) (l : setLine), j < k → qs.lines[j]? = some l → l.valid = true) ∧
      ((∀ l ∈ qs.lines, -2147483648 ≤ l.lastUsed ∧ l.lastUsed < 2147483647) →
        ∀ (j : Nat) (l : setLine), j ≠ k → qs.lines[j]? = some l → l.lastUsed < newUsed) ∧
      run Cache par A =
        some ({ par with misses := par.misses + 1 },
          ⟨Cache.Sets.set si ⟨qs.lines.set k ⟨newUsed, true, t⟩⟩⟩) := by
  have hlen : qs.lines.length = par.E := hshape.2 qs (List.getElem?_mem hqs)
  have hcount : qs.lines.countP (isHit t) = 0 := by
    rw [List.countP_eq_zero]
    intro l hl hh
    simp only [isHit, Bool.and_eq_true, decide_eq_true_eq] at hh
    exact hmiss l hl hh.1 hh.2
  have hbound : ∀ (j : Nat) (l : setLine), qs.lines[j]? = some l → j < qs.lines.length := by
    intro j l hj
    by_contra h
    rw [List.getElem?_eq_none (by omega)] at hj
    cases hj
  rcases run_cases Cache par A t si qs hE ht hsi hqs hlen with
    ⟨hpos, _⟩ | ⟨_, hall, _⟩ | ⟨_, k, lk, mi, mn, mx, hev, hlk, hlkv, hfirst, hr⟩
  · omega
  · obtain ⟨l, hl, hv⟩ := hfree
    rw [hall l hl] at hv
    cases hv
  · obtain ⟨_, _, _, _, hmax, ⟨jm, lm, _, hlm, hlmv⟩⟩ := hev
    refine ⟨k, lk, wrap32 (mx + 1), hlk, hlkv, hfirst, ?_, hr⟩
    intro hrange j l _ hj
    have h1 := hmax j l (hbound j l hj) hj
    have h2 := hrange lm (List.getElem?_mem hlm)
    rw [wrap32_of_range (mx + 1) (by omega) (by omega)]
    omega

/-! ## Counting hits and misses along a trace -/

theorem getElem?_lt {α : Type} (ls : List α) (j : Nat) (l : α) (h : ls[j]? = some l) :
    j < ls.length := by
  by_contra hn
  rw [List.getElem?_eq_none (by omega)] at h
  cases h

theorem isHit_bump (t : Nat) (l : setLine) : isHit t (bump t l) = isHit t l := by
  unfold bump; split <;> simp_all [isHit]

theorem run_installs (Cache : cache) (par : cache_param_t) (A t si : Nat) (qs : cacheSet)
    (hE : 1 ≤ par.E) (ht : inputTag par A = some t) (hsi : setIndex par A = some si)
    (hqs : Cache.Sets[si]? = some qs) (hlen : qs.lines.length = par.E) :
    ∃ par1 Cache1 qs1, run Cache par A = some (par1, Cache1) ∧
      Cache1.Sets[si]? = some qs1 ∧ 0 < qs1.lines.countP (isHit t) := by
  have hsl : si < Cache.Sets.length := getElem?_lt _ _ _ hqs
  rcases run_cases Cache par A t si qs hE ht hsi hqs hlen with
    ⟨hpos, hr⟩ | ⟨_, hall, k, lk, mx, _, hlk, hr⟩ | ⟨_, k, lk, _, _, mx, _, hlk, _, _, hr⟩
  · refine ⟨_, _, _, hr, List.getElem?_set_self hsl, ?_⟩
    simp only [List.countP_map]
    have : (isHit t ∘ bump t) = isHit t := by
      funext l; exact isHit_bump t l
    rw [this]; exact hpos
  · refine ⟨_, _, _, hr, List.getElem?_set_self hsl, ?_⟩
    rw [List.countP_pos_iff]
    exact ⟨_, List.getElem?_mem (List.getElem?_set_self (getElem?_lt _ _ _ hlk)),
      by simp [isHit, hall lk (List.getElem?_mem hlk)]⟩
  · refine ⟨_, _, _, hr, List.getElem?_set_self hsl, ?_⟩
    rw [List.countP_pos_iff]
    exact ⟨_, List.getElem?_mem (List.getElem?_set_self (getElem?_lt _ _ _ hlk)),
      by simp [isHit]⟩

theorem run_inv_step (Cache : cache) (par : cache_param_t) (A : Nat)
    (hs : 1 ≤ par.s) (hsb : par.s + par.b ≤ 63) (hE : 1 ≤ par.E)
    (hinv : Inv par.s par.E Cache) :
    ∃ par1 Cache1, run Cache par A = some (par1, Cache1) ∧ Inv par.s par.E Cache1 ∧
      par1.s = par.s ∧ par1.b = par.b ∧ par1.E = par.E ∧
      par1.hits + par1.misses = par.hits + par.misses + 1 := by
  obtain ⟨p1, c1, hr1, hinv1, e1, e2, e3⟩ := run_inv Cache par A hs hsb hE hinv
  refine ⟨p1, c1, hr1, hinv1, e1, e2, e3, ?_⟩
  obtain ⟨t, si, qs, ht, hsi, hqs, hlen⟩ := target_exists Cache par A hs hsb hinv.1
  have hd : DistinctTags qs.lines := hinv.2 qs (List.getElem?_mem hqs)
  have hle := count_hit_le_one t qs.lines hd
  rcases run_cases Cache par A t si qs hE ht hsi hqs hlen with
    ⟨hpos, hr⟩ | ⟨_, _, k, lk, mx, _, _, hr⟩ | ⟨_, k, lk, _, _, mx, _, _, _, _, hr⟩
  · rw [hr1] at hr
    have hp := congrArg Prod.fst (Option.some.inj hr)
    simp only at hp
    have h1 : qs.lines.countP (isHit t) = 1 := by omega
    rw [hp, h1]; simp; ring
  · rw [hr1] at hr
    have hp := congrArg Prod.fst (Option.some.inj hr)
    simp only at hp
    rw [hp]; simp; ring
  · rw [hr1] at hr
    have hp := congrArg Prod.fst (Option.some.inj hr)
    simp only at hp
    rw [hp]; simp; ring

theorem runAll_evict_le : ∀ (as : List Nat) (Cache : cache) (par : cache_param_t),
    1 ≤ par.s → par.s + par.b ≤ 63 → 1 ≤ par.E → Shape par.s par.E Cache →
    par.evictions ≤ par.misses →
    ∃ par1 Cache1, runAll Cache par as = some (par1, Cache1) ∧
      par1.evictions ≤ par1.misses := by
  intro as
  induction as with
  | nil => intro Cache par _ _ _ _ h; exact ⟨par, Cache, rfl, h⟩
  | cons a rest ih =>
    intro Cache par hs hsb hE hshape hle
    obtain ⟨p1, c1, hr, hshape1, e1, e2, e3, _, hcnt⟩ := run_step Cache par a hs hsb hE hshape
    obtain ⟨p2, c2, hr2, hle2⟩ := ih c1 p1 (by omega) (by omega) (by omega)
      (by rw [e1, e3]; exact hshape1) (by omega)
    exact ⟨p2, c2, by rw [runAll_cons _ _ _ _ _ _ hr]; exact hr2, hle2⟩

theorem dispatch_step (Cache : cache) (par : cache_param_t) (r : traceRec)
    (hs : 1 ≤ par.s) (hsb : par.s + par.b ≤ 63) (hE : 1 ≤ par.E)
    (hinv : Inv par.s par.E Cache) :
    ∃ par1 Cache1, dispatch Cache par r = some (par1, Cache1) ∧ Inv par.s par.E Cache1 ∧
      par1.s = par.s ∧ par1.b = par.b ∧ par1.E = par.E ∧
      par1.hits + par1.misses = par.hits + par.misses +
        (if r.traceCmd = 'L' ∨ r.traceCmd = 'S' then 1 else if r.traceCmd = 'M' then 2 else 0) := by
  obtain ⟨p1, c1, hr1, hinv1, e1, e2, e3, hc1⟩ := run_inv_step Cache par r.address hs hsb hE hinv
  unfold dispatch
  by_cases hI : r.traceCmd = 'I'
  · rw [if_pos hI]
    refine ⟨par, Cache, rfl, hinv, rfl, rfl, rfl, ?_⟩
    simp [hI]
  · rw [if_neg hI]
    by_cases hL : r.traceCmd = 'L'
    · rw [if_pos hL]
      exact ⟨p1, c1, hr1, hinv1, e1, e2, e3, by simp [hL, hc1]⟩
    · rw [if_neg hL]
      by_cases hS : r.traceCmd = 'S'
      · rw [if_pos hS]
        exact ⟨p1, c1, hr1, hinv1, e1, e2, e3, by simp [hS, hc1]⟩
      · rw [if_neg hS]
        by_cases hM : r.traceCmd = 'M'
        · rw [if_pos hM, hr1]
          obtain ⟨p2, c2, hr2, hinv2, f1, f2, f3, hc2⟩ :=
            run_inv_step c1 p1 r.address (by omega) (by omega) (by omega)
              (by rw [e1, e3]; exact hinv1)
          refine ⟨p2, c2, hr2, by rw [← e1, ← e3]; exact hinv2, by omega, by omega, by omega, ?_⟩
          simp [hM, hc2, hc1]; ring
        · rw [if_neg hM]
          refine ⟨par, Cache, rfl, hinv, rfl, rfl, rfl, ?_⟩
          simp [hL, hS, hM]

theorem traceLoop_cons (Cache : cache) (par : cache_param_t) (r : traceRec)
    (rest : List traceRec) (p1 : cache_param_t) (c1 : cache)
    (hr : dispatch Cache par r = some (p1, c1)) :
    traceLoop Cache par (r :: rest) = traceLoop c1 p1 rest := by
  show (match dispatch Cache par r with
    | none => none
    | some (par1, Cache1) => traceLoop Cache1 par1 rest) = _
  rw [hr]

theorem traceLoop_count : ∀ (trace : List traceRec) (Cache : cache) (par : cache_param_t),
    1 ≤ par.s → par.s + par.b ≤ 63 → 1 ≤ par.E → Inv par.s par.E Cache →
    ∃ par1 Cache1, traceLoop Cache par trace = some (par1, Cache1) ∧
      par1.hits + par1.misses = par.hits + par.misses +
        ((trace.countP (fun r => r.traceCmd = 'L') : Nat) +
          (trace.countP (fun r => r.traceCmd = 'S') : Nat) +
          2 * (trace.countP (fun r => r.traceCmd = 'M') : Nat)) := by
  intro trace
  induction trace with
  | nil => intro Cache par _ _ _ _; exact ⟨par, Cache, rfl, by simp⟩
  | cons r rest ih =>
    intro Cache par hs hsb hE hinv
    obtain ⟨p1, c1, hd, hinv1, e1, e2, e3, hc1⟩ := dispatch_step Cache par r hs hsb hE hinv
    obtain ⟨p2, c2, hr2, hc2⟩ := ih c1 p1 (by omega) (by omega) (by omega)
      (by rw [e1, e3]; exact hinv1)
    refine ⟨p2, c2, by rw [traceLoop_cons _ _ _ _ _ _ hd]; exact hr2, ?_⟩
    rw [hc2, hc1]
    simp only [List.countP_cons]
    by_cases hL : r.traceCmd = 'L'
    · simp [hL]; ring
    · by_cases hS : r.traceCmd = 'S'
      · simp [hS]; ring
      · by_cases hM : r.traceCmd = 'M'
        · simp [hM]; ring
        · simp [hL, hS, hM]

/-- C5: for `s ≥ 1`, `s + b ≤ 63`, `E ≥ 1` and every trace, the trace loop of `main`
started on the fresh cache with zero counters runs to the end, and the final
`hits + misses` is the number of `L` records plus the number of `S` records plus twice
the number of `M` records. -/
theorem C5_hits_plus_misses (s b E : Nat) (hs : 1 ≤ s) (hsb : s + b ≤ 63) (hE : 1 ≤ E)
    (trace : List traceRec) :
    ∃ par1 Cache1,
      traceLoop (initCache (2 ^ s) E (2 ^ b)) (initPar s b E) trace = some (par1, Cache1) ∧
      par1.hits + par1.misses =
        ((trace.countP (fun r => r.traceCmd = 'L') : Nat) : Int) +
          (trace.countP (fun r => r.traceCmd = 'S') : Nat) +
          2 * (trace.countP (fun r => r.traceCmd = 'M') : Nat) := by
  obtain ⟨p1, c1, hr, hc⟩ := traceLoop_count trace (initCache (2 ^ s) E (2 ^ b))
    (initPar s b E) hs hsb hE (initCache_inv s E (2 ^ b))
  refine ⟨p1, c1, hr, ?_⟩
  rw [hc]
  simp [initPar]

theorem C5_hits_plus_misses_witness :
    (1 ≤ 1 ∧ 1 + 1 ≤ 63 ∧ 1 ≤ 2) ∧
    ∃ par1 Cache1,
      traceLoop (initCache (2 ^ 1) 2 (2 ^ 1)) (initPar 1 1 2)
        [⟨'L', 0⟩, ⟨'I', 4⟩, ⟨'M', 8⟩, ⟨'S', 0⟩] = some (par1, Cache1) ∧
      par1.hits + par1.misses =
        ((([⟨'L', 0⟩, ⟨'I', 4⟩, ⟨'M', 8⟩, ⟨'S', 0⟩] : List traceRec).countP
            (fun r => r.traceCmd = 'L') : Nat) : Int) +
          (([⟨'L', 0⟩, ⟨'I', 4⟩, ⟨'M', 8⟩, ⟨'S', 0⟩] : List traceRec).countP
            (fun r => r.traceCmd = 'S') : Nat) +
          2 * (([⟨'L', 0⟩, ⟨'I', 4⟩, ⟨'M', 8⟩, ⟨'S', 0⟩] : List traceRec).countP
            (fun r => r.traceCmd = 'M') : Nat) :=
  ⟨by decide, C5_hits_plus_misses 1 1 2 (by decide) (by decide) (by decide)
    [⟨'L', 0⟩, ⟨'I', 4⟩, ⟨'M', 8⟩, ⟨'S', 0⟩]⟩

/-- C6: for `s ≥ 1`, `s + b ≤ 63`, `E ≥ 1` and every cache of that shape, one call of
`run` returns and either leaves `evictions` unchanged or raises it by exactly one, the
latter only when the same call raises `misses` and every line of the target set was
valid before the call; and every sequence of calls of `run` that starts with
`misses = 0` and `evictions = 0` returns with `evictions ≤ misses`. -/
theorem C6_evictions_bounded (Cache : cache) (par : cache_param_t)
    (hs : 1 ≤ par.s) (hsb : par.s + par.b ≤ 63) (hE : 1 ≤ par.E)
    (hshape : Shape par.s par.E Cache) :
    (∀ A : Nat, ∃ par1 Cache1 si qs,
      setIndex par A = some si ∧ Cache.Sets[si]? = some qs ∧
      run Cache par A = some (par1, Cache1) ∧
      (par1.evictions = par.evictions ∨
        (par1.evictions = par.evictions + 1 ∧ par.misses < par1.misses ∧
          ∀ l ∈ qs.lines, l.valid = true))) ∧
    (∀ addrs : List Nat, par.misses = 0 → par.evictions = 0 →
      ∃ par1 Cache1, runAll Cache par addrs = some (par1, Cache1) ∧
        par1.evictions ≤ par1.misses) := by
  constructor
  · intro A
    obtain ⟨t, si, qs, ht, hsi, hqs, hlen⟩ := target_exists Cache par A hs hsb hshape
    rcases run_cases Cache par A t si qs hE ht hsi hqs hlen with
      ⟨_, hr⟩ | ⟨_, hall, k, lk, mx, _, _, hr⟩ | ⟨_, k, lk, _, _, mx, _, _, _, _, hr⟩
    · exact ⟨_, _, si, qs, hsi, hqs, hr, Or.inl rfl⟩
    · exact ⟨_, _, si, qs, hsi, hqs, hr, Or.inr ⟨rfl, by simp, hall⟩⟩
    · exact ⟨_, _, si, qs, hsi, hqs, hr, Or.inl rfl⟩
  · intro addrs hm he
    exact runAll_evict_le addrs Cache par hs hsb hE hshape (by omega)

/-! ## Hits -/

/-- C2, failing input: geometry `s = 1`, `b = 1`, `E = 2`, addresses 0, 4 and then 0
again on the fresh cache.  The two fills leave set 0 with `lastUsed` 1 (tag 0) and 2
(tag 1).  The third access has the tag of the valid line 0 of its set, a hit; `run`
does `lastUsed++` on that line and returns with `hits = 1`.  After the call the hit line
has `lastUsed = 2` and line 1 of the same set has `lastUsed = 2` as well: the line just
hit is not strictly above the other line of its own set. -/
theorem C2_hit_leaves_tie_in_set :
    runAll (initCache (2 ^ 1) 2 (2 ^ 1)) (initPar 1 1 2) [0, 4] =
      some ({ initPar 1 1 2 with misses := 2 }, exCache) ∧
    inputTag (initPar 1 1 2) 0 = some 0 ∧ setIndex (initPar 1 1 2) 0 = some 0 ∧
    lineAt exCache 0 0 = some ⟨1, true, 0⟩ ∧ lineAt exCache 0 1 = some ⟨2, true, 1⟩ ∧
    run exCache { initPar 1 1 2 with misses := 2 } 0 =
      some ({ initPar 1 1 2 with hits := 1, misses := 2 },
        ⟨[⟨[⟨2, true, 0⟩, ⟨2, true, 1⟩]⟩, ⟨[⟨0, false, 0⟩, ⟨0, false, 0⟩]⟩]⟩) ∧
    (lineAt ⟨[⟨[⟨2, true, 0⟩, ⟨2, true, 1⟩]⟩, ⟨[⟨0, false, 0⟩, ⟨0, false, 0⟩]⟩]⟩ 0 0).map
      (fun l => l.lastUsed) = some 2 ∧
    (lineAt ⟨[⟨[⟨2, true, 0⟩, ⟨2, true, 1⟩]⟩, ⟨[⟨0, false, 0⟩, ⟨0, false, 0⟩]⟩]⟩ 0 1).map
      (fun l => l.lastUsed) = some 2 := by
  decide

theorem inputTag_congr (p q : cache_param_t) (A : Nat) (h1 : p.s = q.s) (h2 : p.b = q.b) :
    inputTag p A = inputTag q A := by
  simp only [inputTag, h1, h2]

theorem setIndex_congr (p q : cache_param_t) (A : Nat) (h1 : p.s = q.s) (h2 : p.b = q.b) :
    setIndex p A = setIndex q A := by
  simp only [setIndex, tagSize, h1, h2]

theorem run_twice (Cache : cache) (par : cache_param_t) (A : Nat)
    (hs : 1 ≤ par.s) (hsb : par.s + par.b ≤ 63) (hE : 1 ≤ par.E)
    (hinv : Inv par.s par.E Cache) :
    ∃ par1 Cache1 par2 Cache2, run Cache par A = some (par1, Cache1) ∧
      run Cache1 par1 A = some (par2, Cache2) ∧
      par2.hits = par1.hits + 1 ∧ par2.misses = par1.misses ∧
      par2.evictions = par1.evictions := by
  obtain ⟨t, si, qs, ht, hsi, hqs, hlen⟩ := target_exists Cache par A hs hsb hinv.1
  obtain ⟨p1, c1, qs1, hr, hqs1, hpos⟩ := run_installs Cache par A t si qs hE ht hsi hqs hlen
  obtain ⟨p1', c1', hr', hinv1, e1, e2, e3⟩ := run_inv Cache par A hs hsb hE hinv
  rw [hr] at hr'
  cases hr'
  have ht1 : inputTag p1 A = some t := by rw [inputTag_congr p1 par A e1 e2]; exact ht
  have hsi1 : setIndex p1 A = some si := by rw [setIndex_congr p1 par A e1 e2]; exact hsi
  have hlen1 : qs1.lines.length = p1.E := by
    rw [e3]; exact hinv1.1.2 qs1 (List.getElem?_mem hqs1)
  have hd1 : DistinctTags qs1.lines := hinv1.2 qs1 (List.getElem?_mem hqs1)
  have hle := count_hit_le_one t qs1.lines hd1
  rcases run_cases c1 p1 A t si qs1 (by omega) ht1 hsi1 hqs1 hlen1 with
    ⟨_, hr2⟩ | ⟨hc, _⟩ | ⟨hc, _⟩
  · refine ⟨p1, c1, _, _, hr, hr2, ?_, rfl, rfl⟩
    have h1 : qs1.lines.countP (isHit t) = 1 := by omega
    rw [h1]; simp
  · omega
  · omega

theorem run_fresh (par : cache_param_t) (A B : Nat)
    (hs : 1 ≤ par.s) (hsb : par.s + par.b ≤ 63) (hE : 1 ≤ par.E) :
    ∃ Cache1, run (initCache (2 ^ par.s) par.E B) par A =
      some ({ par with misses := par.misses + 1 }, Cache1) := by
  have hinv := initCache_inv par.s par.E B
  obtain ⟨t, si, qs, ht, hsi, hqs, hlen⟩ :=
    target_exists (initCache (2 ^ par.s) par.E B) par A hs hsb hinv.1
  have hq : qs = ⟨List.replicate par.E ⟨0, false, 0⟩⟩ := by
    have := List.getElem?_mem hqs
    simp only [initCache] at this
    exact List.eq_of_mem_replicate this
  have h0 : qs.lines[0]? = some ⟨0, false, 0⟩ := by
    rw [hq]; simp only []; rw [List.getElem?_replicate, if_pos (by omega)]
  rcases run_cases _ par A t si qs hE ht hsi hqs hlen with
    ⟨hpos, _⟩ | ⟨_, hall, _⟩ | ⟨_, k, lk, _, _, mx, _, _, _, _, hr⟩
  · rw [List.countP_pos_iff] at hpos
    obtain ⟨l, hl, hh⟩ := hpos
    rw [hq] at hl
    rw [List.eq_of_mem_replicate hl] at hh
    simp [isHit] at hh
  · have := hall _ (List.getElem?_mem h0)
    simp at this
  · exact ⟨_, hr⟩

/-- C7: for `s ≥ 1`, `s + b ≤ 63`, `E ≥ 1`, every cache reachable from the fresh cache by
calls of `run` and every address `A`: two calls of `run` with `A` in a row (the record
`M`) both return, and the second one is a hit: `hits` one higher, `misses` and
`evictions` unchanged.  And the single record `M 10` on the fresh cache with zero
counters ends with `hits = 1`, `misses = 1`, `evictions = 0`. -/
theorem C7_modify_second_access_hits (Cache : cache) (par : cache_param_t) (A : Nat)
    (hs : 1 ≤ par.s) (hsb : par.s + par.b ≤ 63) (hE : 1 ≤ par.E)
    (hreach : Reachable par.s par.b par.E Cache) :
    (∃ par1 Cache1 par2 Cache2, run Cache par A = some (par1, Cache1) ∧
      run Cache1 par1 A = some (par2, Cache2) ∧
      par2.hits = par1.hits + 1 ∧ par2.misses = par1.misses ∧
      par2.evictions = par1.evictions) ∧
    (∃ par3 Cache3,
      traceLoop (initCache (2 ^ par.s) par.E (2 ^ par.b)) (initPar par.s par.b par.E)
        [⟨'M', 0x10⟩] = some (par3, Cache3) ∧
      par3.hits = 1 ∧ par3.misses = 1 ∧ par3.evictions = 0) := by
  constructor
  · exact run_twice Cache par A hs hsb hE (reachable_inv _ _ _ _ hs hsb hE hreach)
  · obtain ⟨p1, c1, p2, c2, hr1, hr2, eh, em, ee⟩ :=
      run_twice (initCache (2 ^ par.s) par.E (2 ^ par.b)) (initPar par.s par.b par.E) 0x10
        hs hsb hE (initCache_inv par.s par.E (2 ^ par.b))
    obtain ⟨c1', hf⟩ := run_fresh (initPar par.s par.b par.E) 0x10 (2 ^ par.b) hs hsb hE
    have hf2 : run (initCache (2 ^ par.s) par.E (2 ^ par.b)) (initPar par.s par.b par.E) 0x10
        = some ({ initPar par.s par.b par.E with misses := 0 + 1 }, c1') := hf
    rw [hr1] at hf2
    have hp := congrArg Prod.fst (Option.some.inj hf2)
    simp only at hp
    have hd : dispatch (initCache (2 ^ par.s) par.E (2 ^ par.b))
        (initPar par.s par.b par.E) ⟨'M', 0x10⟩ = some (p2, c2) := by
      unfold dispatch
      rw [if_neg (by decide), if_neg (by decide), if_neg (by decide), if_pos rfl]
      simp only [hr1, hr2]
    refine ⟨p2, c2, by rw [traceLoop_cons _ _ _ _ _ _ hd]; rfl, ?_, ?_, ?_⟩
    · rw [eh, hp]; rfl
    · rw [em, hp]; rfl
    · rw [ee, hp]; rfl

theorem C7_modify_second_access_hits_witness :
    (1 ≤ (initPar 1 1 2).s ∧ (initPar 1 1 2).s + (initPar 1 1 2).b ≤ 63 ∧
      1 ≤ (initPar 1 1 2).E ∧
      Reachable (initPar 1 1 2).s (initPar 1 1 2).b (initPar 1 1 2).E exCache) ∧
    (∃ par1 Cache1 par2 Cache2, run exCache (initPar 1 1 2) 8 = some (par1, Cache1) ∧
      run Cache1 par1 8 = some (par2, Cache2) ∧
      par2.hits = par1.hits + 1 ∧ par2.misses = par1.misses ∧
      par2.evictions = par1.evictions) ∧
    (∃ par3 Cache3,
      traceLoop (initCache (2 ^ (initPar 1 1 2).s) (initPar 1 1 2).E (2 ^ (initPar 1 1 2).b))
        (initPar (initPar 1 1 2).s (initPar 1 1 2).b (initPar 1 1 2).E)
        [⟨'M', 0x10⟩] = some (par3, Cache3) ∧
      par3.hits = 1 ∧ par3.misses = 1 ∧ par3.evictions = 0) :=
  ⟨⟨by decide, by decide, by decide, ⟨[0, 4], _, rfl⟩⟩,
    C7_modify_second_access_hits exCache (initPar 1 1 2) 8 (by decide) (by decide)
      (by decide) ⟨[0, 4], _, rfl⟩⟩

theorem C3_miss_in_full_set_witness :
    (1 ≤ (initPar 1 1 2).E ∧ Shape (initPar 1 1 2).s (initPar 1 1 2).E exCache ∧
      inputTag (initPar 1 1 2) 8 = some 2 ∧ setIndex (initPar 1 1 2) 8 = some 0 ∧
      exCache.Sets[0]? = some ⟨[⟨1, true, 0⟩, ⟨2, true, 1⟩]⟩ ∧
      (∀ l ∈ ([⟨1, true, 0⟩, ⟨2, true, 1⟩] : List setLine), l.valid = true → l.tag ≠ 2) ∧
      (∀ l ∈ ([⟨1, true, 0⟩, ⟨2, true, 1⟩] : List setLine), l.valid = true) ∧
      (∀ l ∈ ([⟨1, true, 0⟩, ⟨2, true, 1⟩] : List setLine),
        -2147483648 ≤ l.lastUsed ∧ l.lastUsed < 2147483647)) ∧
    ∃ (k : Nat) (lk : setLine) (newUsed : Int),
      ([⟨1, true, 0⟩, ⟨2, true, 1⟩] : List setLine)[k]? = some lk ∧
      (∀ (j : Nat) (l : setLine), ([⟨1, true, 0⟩, ⟨2, true, 1⟩] : List setLine)[j]? = some l →
        lk.lastUsed ≤ l.lastUsed) ∧
      (∀ (j : Nat) (l : setLine), j < k →
        ([⟨1, true, 0⟩, ⟨2, true, 1⟩] : List setLine)[j]? = some l →
        lk.lastUsed < l.lastUsed) ∧
      ((∀ l ∈ ([⟨1, true, 0⟩, ⟨2, true, 1⟩] : List setLine),
          -2147483648 ≤ l.lastUsed ∧ l.lastUsed < 2147483647) →
        ∀ (j : Nat) (l : setLine), j ≠ k →
          ([⟨1, true, 0⟩, ⟨2, true, 1⟩] : List setLine)[j]? = some l →
          l.lastUsed < newUsed) ∧
      run exCache (initPar 1 1 2) 8 =
        some ({ initPar 1 1 2 with misses := (initPar 1 1 2).misses + 1,
                                   evictions := (initPar 1 1 2).evictions + 1 },
          ⟨exCache.Sets.set 0
            ⟨([⟨1, true, 0⟩, ⟨2, true, 1⟩] : List setLine).set k ⟨newUsed, true, 2⟩⟩⟩) :=
  ⟨⟨by decide, by decide, by decide, by decide, by decide, by decide, by decide,
      by decide⟩,
    C3_miss_in_full_set exCache (initPar 1 1 2) 8 2 0 ⟨[⟨1, true, 0⟩, ⟨2, true, 1⟩]⟩
      (by decide) (by decide) (by decide) (by decide) (by decide) (by decide) (by decide)⟩

theorem C4_miss_fills_first_invalid_witness :
    (1 ≤ (initPar 1 1 2).E ∧ Shape (initPar 1 1 2).s (initPar 1 1 2).E exCache ∧
      inputTag (initPar 1 1 2) 6 = some 1 ∧ setIndex (initPar 1 1 2) 6 = some 1 ∧
      exCache.Sets[1]? = some ⟨[⟨0, false, 0⟩, ⟨0, false, 0⟩]⟩ ∧
      (∀ l ∈ ([⟨0, false, 0⟩, ⟨0, false, 0⟩] : List setLine), l.valid = true → l.tag ≠ 1) ∧
      (∃ l ∈ ([⟨0, false, 0⟩, ⟨0, false, 0⟩] : List setLine), l.valid = false) ∧
      (∀ l ∈ ([⟨0, false, 0⟩, ⟨0, false, 0⟩] : List setLine),
        -2147483648 ≤ l.lastUsed ∧ l.lastUsed < 2147483647)) ∧
    ∃ (k : Nat) (lk : setLine) (newUsed : Int),
      ([⟨0, false, 0⟩, ⟨0, false, 0⟩] : List setLine)[k]? = some lk ∧ lk.valid = false ∧
      (∀ (j : Nat) (l : setLine), j < k →
        ([⟨0, false, 0⟩, ⟨0, false, 0⟩] : List setLine)[j]? = some l → l.valid = true) ∧
      ((∀ l ∈ ([⟨0, false, 0⟩, ⟨0, false, 0⟩] : List setLine),
          -2147483648 ≤ l.lastUsed ∧ l.lastUsed < 2147483647) →
        ∀ (j : Nat) (l : setLine), j ≠ k →
          ([⟨0, false, 0⟩, ⟨0, false, 0⟩] : List setLine)[j]? = some l →
          l.lastUsed < newUsed) ∧
      run exCache (initPar 1 1 2) 6 =
        some ({ initPar 1 1 2 with misses := (initPar 1 1 2).misses + 1 },
          ⟨exCache.Sets.set 1
            ⟨([⟨0, false, 0⟩, ⟨0, false, 0⟩] : List setLine).set k ⟨newUsed, true, 1⟩⟩⟩) :=
  ⟨⟨by decide, by decide, by decide, by decide, by decide, by decide, by decide,
      by decide⟩,
    C4_miss_fills_first_invalid exCache (initPar 1 1 2) 6 1 1
      ⟨[⟨0, false, 0⟩, ⟨0, false, 0⟩]⟩
      (by decide) (by decide) (by decide) (by decide) (by decide) (by decide) (by decide)⟩

theorem C6_evictions_bounded_witness :
    (1 ≤ (initPar 1 1 2).s ∧ (initPar 1 1 2).s + (initPar 1 1 2).b ≤ 63 ∧
      1 ≤ (initPar 1 1 2).E ∧ Shape (initPar 1 1 2).s (initPar 1 1 2).E exCache) ∧
    (∀ A : Nat, ∃ par1 Cache1 si qs,
      setIndex (initPar 1 1 2) A = some si ∧ exCache.Sets[si]? = some qs ∧
      run exCache (initPar 1 1 2) A = some (par1, Cache1) ∧
      (par1.evictions = (initPar 1 1 2).evictions ∨
        (par1.evictions = (initPar 1 1 2).evictions + 1 ∧
          (initPar 1 1 2).misses < par1.misses ∧ ∀ l ∈ qs.lines, l.valid = true))) ∧
    (∀ addrs : List Nat, (initPar 1 1 2).misses = 0 → (initPar 1 1 2).evictions = 0 →
      ∃ par1 Cache1, runAll exCache (initPar 1 1 2) addrs = some (par1, Cache1) ∧
        par1.evictions ≤ par1.misses) :=
  ⟨⟨by decide, by decide, by decide, by decide⟩,
    C6_evictions_bounded exCache (initPar 1 1 2) (by decide) (by decide) (by decide)
      (by decide)⟩

/-! ## Filling one set with distinct tags, then one more -/

theorem filledLines_get (E : Nat) (tags : List Nat) (j : Nat) :
    (filledLines E tags)[j]? =
      if j < E then
        some (if j < tags.length then ⟨(j : Int) + 1, true, tags.getD j 0⟩ else ⟨0, false, 0⟩)
      else none := by
  unfold filledLines
  rw [List.getElem?_map]
  by_cases h : j < E
  · rw [List.getElem?_range h, if_pos h]; rfl
  · rw [if_neg h, List.getElem?_eq_none (by simp; omega)]; rfl

theorem filledLines_length (E : Nat) (tags : List Nat) : (filledLines E tags).length = E := by
  simp [filledLines]

theorem filledLines_nil (E : Nat) : filledLines E [] = List.replicate E ⟨0, false, 0⟩ := by
  apply List.ext_getElem?
  intro j
  rw [filledLines_get, List.getElem?_replicate]
  simp

theorem filledLines_snoc (E : Nat) (tags : List Nat) (t : Nat) :
    (filledLines E tags).set tags.length ⟨(tags.length : Int) + 1, true, t⟩ =
      filledLines E (tags ++ [t]) := by
  apply List.ext_getElem?
  intro j
  rw [List.getElem?_set, filledLines_get, filledLines_get, filledLines_length]
  by_cases hj : j < E
  · simp only [hj, if_true, List.length_append, List.length_singleton]
    by_cases h1 : tags.length = j
    · subst h1
      simp [List.getD_append_right, hj]
    · rw [if_neg h1]
      by_cases h2 : j < tags.length
      · rw [if_pos h2, if_pos (by omega), List.getD_append _ _ _ _ h2]
      · rw [if_neg h2, if_neg (by omega)]
  · simp only [hj, if_false]
    split
    · rw [if_neg (by omega)]
    · rfl

theorem filledLines_no_hit (E : Nat) (tags : List Nat) (t : Nat) (ht : t ∉ tags) :
    (filledLines E tags).countP (isHit t) = 0 := by
  rw [List.countP_eq_zero]
  intro l hl hh
  obtain ⟨j, hj⟩ := List.getElem?_of_mem hl
  rw [filledLines_get] at hj
  split at hj
  · cases hj
    split at hh
    · rename_i h2
      simp only [isHit, Bool.true_and, decide_eq_true_eq] at hh
      apply ht
      rw [← hh, List.getD_eq_getElem _ _ h2]
      exact List.getElem_mem _
    · simp [isHit] at hh
  · cases hj

theorem filledLines_max (E : Nat) (tags : List Nat) (hE : 1 ≤ E) (hn : tags.length ≤ E)
    (mi : Nat) (mn mx : Int)
    (hev : EvictInv (filledLines E tags) (filledLines E tags).length mi mn mx) :
    mx = tags.length := by
  obtain ⟨_, _, _, _, hmax, ⟨j, l, hj, hl, hlv⟩⟩ := hev
  rw [filledLines_length] at hmax hj
  have hle : mx ≤ tags.length := by
    rw [filledLines_get, if_pos hj] at hl
    cases hl
    rw [← hlv]
    split
    · simp only []; omega
    · simp only []; omega
  have hge : (tags.length : Int) ≤ mx := by
    by_cases h0 : tags.length = 0
    · have := hmax 0 ⟨0, false, 0⟩ (by omega)
        (by rw [filledLines_get, if_pos (by omega), if_neg (by omega)])
      simp only [] at this
      omega
    · have := hmax (tags.length - 1) ⟨((tags.length - 1 : Nat) : Int) + 1, true,
          tags.getD (tags.length - 1) 0⟩ (by omega)
        (by rw [filledLines_get, if_pos (by omega), if_pos (by omega)])
      simp only [] at this
      omega
  omega

theorem fill_step (Cache : cache) (par : cache_param_t) (A t si : Nat) (tags : List Nat)
    (hE : 1 ≤ par.E) (ht : inputTag par A = some t) (hsi : setIndex par A = some si)
    (hqs : Cache.Sets[si]? = some ⟨filledLines par.E tags⟩)
    (hroom : tags.length < par.E) (hnew : t ∉ tags) (hint : par.E < 2147483648) :
    run Cache par A =
      some ({ par with misses := par.misses + 1 },
        ⟨Cache.Sets.set si ⟨filledLines par.E (tags ++ [t])⟩⟩) := by
  have hfree : (filledLines par.E tags)[tags.length]? = some ⟨0, false, 0⟩ := by
    rw [filledLines_get, if_pos hroom, if_neg (by omega)]
  rcases run_cases Cache par A t si ⟨filledLines par.E tags⟩ hE ht hsi hqs
      (filledLines_length _ _) with
    ⟨hpos, _⟩ | ⟨_, hall, _⟩ | ⟨_, k, lk, mi, mn, mx, hev, hlk, hlkv, hfirst, hr⟩
  · have := filledLines_no_hit par.E tags t hnew
    simp only [] at hpos
    omega
  · have := hall _ (List.getElem?_mem hfree)
    simp at this
  · simp only [] at hev hlk hfirst hr
    have hmx := filledLines_max par.E tags hE (by omega) mi mn mx hev
    have hkE : k < par.E := by
      have := getElem?_lt _ _ _ hlk
      rw [filledLines_length] at this
      exact this
    have hk1 : ¬ k < tags.length := by
      intro h
      rw [filledLines_get, if_pos hkE, if_pos h] at hlk
      cases hlk
      simp at hlkv
    have hk2 : ¬ tags.length < k := by
      intro h
      have := hfirst tags.length _ h hfree
      simp at this
    have hk : k = tags.length := by omega
    subst hk
    rw [hfree] at hlk
    cases hlk
    have hw : wrap32 ((tags.length : Int) + 1) = (tags.length : Int) + 1 :=
      wrap32_of_range _ (by omega) (by omega)
    rw [hr, hmx, hw, filledLines_snoc]

theorem set_same {α : Type} (l : List α) (i : Nat) (a : α) (h : l[i]? = some a) :
    l.set i a = l := by
  apply List.ext_getElem?
  intro j
  rw [List.getElem?_set]
  by_cases hij : i = j
  · subst hij
    rw [if_pos rfl, if_pos (getElem?_lt _ _ _ h), h]
  · rw [if_neg hij]

theorem fill_all : ∀ (as tags : List Nat) (Cache : cache) (par : cache_param_t) (si : Nat),
    1 ≤ par.E → par.E < 2147483648 → par.s + par.b ≤ 63 →
    Cache.Sets[si]? = some ⟨filledLines par.E tags⟩ →
    tags.length + as.length ≤ par.E →
    (∀ a ∈ as, setIndex par a = some si) →
    (tags ++ as.map (fun a => a / 2 ^ (par.s + par.b))).Nodup →
    runAll Cache par as =
      some ({ par with misses := par.misses + (as.length : Nat) },
        ⟨Cache.Sets.set si
          ⟨filledLines par.E (tags ++ as.map (fun a => a / 2 ^ (par.s + par.b)))⟩⟩) := by
  intro as
  induction as with
  | nil =>
    intro tags Cache par si _ _ _ hqs _ _ _
    simp only [List.map_nil, List.append_nil, List.length_nil, Nat.cast_zero, add_zero]
    rw [set_same _ _ _ hqs]
    rfl
  | cons a rest ih =>
    intro tags Cache par si hE hint hsb hqs hlen hset hnd
    have hsl : si < Cache.Sets.length := getElem?_lt _ _ _ hqs
    have hnew : a / 2 ^ (par.s + par.b) ∉ tags := by
      intro hmem
      rw [List.map_cons, List.nodup_append] at hnd
      exact hnd.2.2 hmem (List.mem_cons_self _ _)
    have hstep := fill_step Cache par a (a / 2 ^ (par.s + par.b)) si tags hE
      (inputTag_eq par a hsb) (hset a (List.mem_cons_self _ _)) hqs
      (by simp only [List.length_cons] at hlen; omega) hnew hint
    rw [runAll_cons _ _ _ _ _ _ hstep]
    have hih := ih (tags ++ [a / 2 ^ (par.s + par.b)])
      ⟨Cache.Sets.set si ⟨filledLines par.E (tags ++ [a / 2 ^ (par.s + par.b)])⟩⟩
      { par with misses := par.misses + 1 } si hE hint hsb
      (List.getElem?_set_self hsl)
      (by simp only [List.length_cons, List.length_append, List.length_nil] at hlen ⊢
          omega)
      (fun x hx => hset x (List.mem_cons_of_mem _ hx))
      (by simpa using hnd)
    rw [hih]
    simp only [List.set_set, List.append_assoc, List.singleton_append, List.map_cons,
      List.length_cons]
    congr 2
    simp only [cache_param_t.mk.injEq, true_and, and_true]
    push_cast
    ring

theorem evict_step (Cache : cache) (par : cache_param_t) (A t si : Nat) (tags : List Nat)
    (hE : 1 ≤ par.E) (ht : inputTag par A = some t) (hsi : setIndex par A = some si)
    (hqs : Cache.Sets[si]? = some ⟨filledLines par.E tags⟩)
    (hfull : tags.length = par.E) (hnew : t ∉ tags) :
    run Cache par A =
      some ({ par with misses := par.misses + 1, evictions := par.evictions + 1 },
        ⟨Cache.Sets.set si
          ⟨(filledLines par.E tags).set 0 ⟨wrap32 ((par.E : Int) + 1), true, t⟩⟩⟩) := by
  have h0 : (filledLines par.E tags)[0]? = some ⟨((0 : Nat) : Int) + 1, true, tags.getD 0 0⟩ := by
    rw [filledLines_get, if_pos (by omega), if_pos (by omega)]
  rcases run_cases Cache par A t si ⟨filledLines par.E tags⟩ hE ht hsi hqs
      (filledLines_length _ _) with
    ⟨hpos, _⟩ | ⟨_, _, k, lk, mx, hev, hlk, hr⟩ | ⟨_, k, lk, _, _, _, _, hlk, hlkv, _, _⟩
  · have := filledLines_no_hit par.E tags t hnew
    simp only [] at hpos
    omega
  · simp only [] at hev hlk hr
    have hmx := filledLines_max par.E tags hE (by omega) k lk.lastUsed mx hev
    have hkE : k < par.E := by
      have := getElem?_lt _ _ _ hlk
      rw [filledLines_length] at this
      exact this
    have hmin := hev.2.2.1 0 _ (by rw [filledLines_length]; omega) h0
    rw [filledLines_get, if_pos hkE, if_pos (by omega)] at hlk
    cases hlk
    simp only [] at hmin
    have hk : k = 0 := by omega
    subst hk
    rw [hr, hmx, hfull]
  · simp only [] at hlk
    have hkE : k < par.E := by
      have := getElem?_lt _ _ _ hlk
      rw [filledLines_length] at this
      exact this
    rw [filledLines_get, if_pos hkE, if_pos (by omega)] at hlk
    cases hlk
    simp at hlkv

theorem filledLines_full_valid (E : Nat) (tags : List Nat) (hfull : tags.length = E) :
    ∀ l ∈ filledLines E tags, l.valid = true := by
  intro l hl
  obtain ⟨j, hj⟩ := List.getElem?_of_mem hl
  have hjE := getElem?_lt _ _ _ hj
  rw [filledLines_length] at hjE
  rw [filledLines_get, if_pos hjE, if_pos (by omega)] at hj
  cases hj
  rfl

theorem filledLines_tags (E : Nat) (tags : List Nat) (hfull : tags.length = E) :
    (filledLines E tags).map (fun l => some l.tag) = tags.map some := by
  apply List.ext_getElem?
  intro j
  rw [List.getElem?_map, List.getElem?_map, filledLines_get]
  by_cases hj : j < E
  · rw [if_pos hj, if_pos (by omega), List.getElem?_eq_getElem (by omega),
      List.getD_eq_getElem _ _ (by omega)]
    rfl
  · rw [if_neg hj, List.getElem?_eq_none (by omega)]
    rfl

theorem after_evict_no_hit (E : Nat) (t1 tz : Nat) (ts : List Nat) (used : Int)
    (hnd : (t1 :: ts ++ [tz]).Nodup) :
    (((filledLines E (t1 :: ts)).set 0 ⟨used, true, tz⟩).countP (isHit t1)) = 0 := by
  have h1z : tz ≠ t1 := by
    intro h
    rw [List.cons_append, List.nodup_cons] at hnd
    exact hnd.1 (by rw [h]; simp)
  have h1ts : t1 ∉ ts := by
    intro h
    rw [List.cons_append, List.nodup_cons] at hnd
    exact hnd.1 (List.mem_append_left _ h)
  rw [List.countP_eq_zero]
  intro l hl hh
  obtain ⟨j, hj⟩ := List.getElem?_of_mem hl
  rw [List.getElem?_set] at hj
  by_cases h0 : 0 = j
  · rw [if_pos h0] at hj
    split at hj
    · cases hj
      simp [isHit, h1z] at hh
    · cases hj
  · rw [if_neg h0, filledLines_get] at hj
    split at hj
    · cases hj
      split at hh
      · rename_i h2
        simp only [isHit, Bool.true_and, decide_eq_true_eq] at hh
        obtain ⟨i, rfl⟩ : ∃ i, j = i + 1 := ⟨j - 1, by omega⟩
        simp only [List.length_cons] at h2
        rw [List.getD_cons_succ, List.getD_eq_getElem _ _ (by omega)] at hh
        exact h1ts (hh ▸ List.getElem_mem _)
      · simp [isHit] at hh
    · cases hj

/-- C8: `E = N ≥ 1` lines per set (`E` is an `int`, so `N < 2 ^ 31`), `s ≥ 1`,
`s + b ≤ 63`; `a1 :: rest` are `N` addresses and `z` one more, all with the set index `si` and with pairwise distinct tags.
On the fresh cache the `N` accesses all miss and leave set `si` full, line `i` holding
the tag of the `i`-th address.  The access to `z` then misses and evicts: afterwards the
set holds the tag of `z` in place of the tag of `a1` and every other tag as before.  The
access to `a1` after that is a miss again (`hits` unchanged). -/
theorem C8_lru_evicts_oldest (par : cache_param_t) (a1 : Nat) (rest : List Nat) (z si : Nat)
    (hs : 1 ≤ par.s) (hsb : par.s + par.b ≤ 63) (hN : (a1 :: rest).length = par.E)
    (hint : par.E < 2147483648)
    (hset : ∀ a ∈ a1 :: rest ++ [z], setIndex par a = some si)
    (htags : ((a1 :: rest ++ [z]).map (inputTag par)).Nodup) :
    ∃ (Cache1 Cache2 Cache3 : cache) (qs1 qs2 : cacheSet) (par3 : cache_param_t),
      runAll (initCache (2 ^ par.s) par.E (2 ^ par.b)) par (a1 :: rest) =
        some ({ par with misses := par.misses + (par.E : Nat) }, Cache1) ∧
      Cache1.Sets[si]? = some qs1 ∧ (∀ l ∈ qs1.lines, l.valid = true) ∧
      qs1.lines.map (fun l => some l.tag) = (a1 :: rest).map (inputTag par) ∧
      run Cache1 { par with misses := par.misses + (par.E : Nat) } z =
        some ({ par with misses := par.misses + (par.E : Nat) + 1,
                         evictions := par.evictions + 1 }, Cache2) ∧
      Cache2.Sets[si]? = some qs2 ∧ (∀ l ∈ qs2.lines, l.valid = true) ∧
      qs2.lines.map (fun l => some l.tag) = (z :: rest).map (inputTag par) ∧
      run Cache2 { par with misses := par.misses + (par.E : Nat) + 1,
                            evictions := par.evictions + 1 } a1 = some (par3, Cache3) ∧
      par3.hits = par.hits ∧ par3.misses = par.misses + (par.E : Nat) + 2 := by
  have hE : 1 ≤ par.E := by rw [← hN]; simp
  have hT : ∀ l : List Nat, l.map (inputTag par) =
      (l.map (fun a => a / 2 ^ (par.s + par.b))).map some := by
    intro l
    rw [List.map_map]
    apply List.map_congr_left
    intro a _
    exact inputTag_eq par a hsb
  have hnd : ((a1 :: rest ++ [z]).map (fun a => a / 2 ^ (par.s + par.b))).Nodup := by
    rw [hT] at htags
    exact List.Nodup.of_map _ htags
  have hsi1 : setIndex par a1 = some si := hset a1 (by simp)
  have hsiz : setIndex par z = some si := hset z (by simp)
  have hsl : si < 2 ^ par.s := by
    rw [setIndex_eq par a1 hs hsb] at hsi1
    cases hsi1
    exact Nat.mod_lt _ (by positivity)
  have hinit : (initCache (2 ^ par.s) par.E (2 ^ par.b)).Sets[si]? =
      some ⟨filledLines par.E []⟩ := by
    simp only [initCache]
    rw [List.getElem?_replicate, if_pos hsl, filledLines_nil]
  have hlen0 : (initCache (2 ^ par.s) par.E (2 ^ par.b)).Sets.length = 2 ^ par.s := by
    simp [initCache]
  have hfill := fill_all (a1 :: rest) [] (initCache (2 ^ par.s) par.E (2 ^ par.b)) par si
    hE hint hsb hinit (by rw [hN]; simp)
    (fun a ha => hset a (List.mem_append_left _ ha))
    (by
      rw [List.nil_append]
      have := hnd
      rw [List.map_append, List.nodup_append] at this
      exact this.1)
  rw [hN, List.nil_append] at hfill
  have hfullT : ((a1 :: rest).map (fun a => a / 2 ^ (par.s + par.b))).length = par.E := by
    rw [List.length_map]; exact hN
  have hznew : z / 2 ^ (par.s + par.b) ∉
      (a1 :: rest).map (fun a => a / 2 ^ (par.s + par.b)) := by
    intro hmem
    rw [List.map_append, List.nodup_append] at hnd
    exact hnd.2.2 hmem (by simp)
  have hevict := evict_step
    ⟨(initCache (2 ^ par.s) par.E (2 ^ par.b)).Sets.set si
      ⟨filledLines par.E ((a1 :: rest).map (fun a => a / 2 ^ (par.s + par.b)))⟩⟩
    { par with misses := par.misses + (par.E : Nat) } z (z / 2 ^ (par.s + par.b)) si
    ((a1 :: rest).map (fun a => a / 2 ^ (par.s + par.b))) hE
    (inputTag_eq par z hsb) hsiz
    (List.getElem?_set_self (by rw [hlen0]; exact hsl)) hfullT hznew
  have hvalid2 : ∀ l ∈ (filledLines par.E
      ((a1 :: rest).map (fun a => a / 2 ^ (par.s + par.b)))).set 0
        ⟨wrap32 ((par.E : Int) + 1), true, z / 2 ^ (par.s + par.b)⟩, l.valid = true := by
    intro l hl
    rcases List.mem_or_eq_of_mem_set hl with h | h
    · exact filledLines_full_valid _ _ hfullT l h
    · rw [h]
  have hcount := after_evict_no_hit par.E (a1 / 2 ^ (par.s + par.b))
    (z / 2 ^ (par.s + par.b)) (rest.map (fun a => a / 2 ^ (par.s + par.b)))
    (wrap32 ((par.E : Int) + 1)) (by simpa using hnd)
  have hlast := run_cases
    ⟨(List.set (initCache (2 ^ par.s) par.E (2 ^ par.b)).Sets si
        ⟨filledLines par.E ((a1 :: rest).map (fun a => a / 2 ^ (par.s + par.b)))⟩).set si
      ⟨(filledLines par.E ((a1 :: rest).map (fun a => a / 2 ^ (par.s + par.b)))).set 0
        ⟨wrap32 ((par.E : Int) + 1), true, z / 2 ^ (par.s + par.b)⟩⟩⟩
    { par with misses := par.misses + (par.E : Nat) + 1, evictions := par.evictions + 1 }
    a1 (a1 / 2 ^ (par.s + par.b)) si
    ⟨(filledLines par.E ((a1 :: rest).map (fun a => a / 2 ^ (par.s + par.b)))).set 0
        ⟨wrap32 ((par.E : Int) + 1), true, z / 2 ^ (par.s + par.b)⟩⟩
    hE (inputTag_eq par a1 hsb) hsi1
    (List.getElem?_set_self (by rw [List.length_set, hlen0]; exact hsl))
    (by simp [filledLines_length])
  have hlast2 : ∃ par3 Cache3, run
      ⟨(List.set (initCache (2 ^ par.s) par.E (2 ^ par.b)).Sets si
        ⟨filledLines par.E ((a1 :: rest).map (fun a => a / 2 ^ (par.s + par.b)))⟩).set si
      ⟨(filledLines par.E ((a1 :: rest).map (fun a => a / 2 ^ (par.s + par.b)))).set 0
        ⟨wrap32 ((par.E : Int) + 1), true, z / 2 ^ (par.s + par.b)⟩⟩⟩
      { par with misses := par.misses + (par.E : Nat) + 1, evictions := par.evictions + 1 }
      a1 = some (par3, Cache3) ∧ par3.hits = par.hits ∧
        par3.misses = par.misses + (par.E : Nat) + 2 := by
    rcases hlast with ⟨hpos, _⟩ | ⟨_, _, k, lk, mx, _, _, hr⟩ |
      ⟨_, k, lk, _, _, mx, _, _, _, _, hr⟩
    · simp only [List.map_cons] at hpos
      omega
    · exact ⟨_, _, hr, rfl, by simp only []; ring⟩
    · exact ⟨_, _, hr, rfl, by simp only []; ring⟩
  obtain ⟨par3, Cache3, hr3, hh3, hm3⟩ := hlast2
  refine ⟨_, _, Cache3, _, _, par3, hfill, List.getElem?_set_self (by rw [hlen0]; exact hsl),
    filledLines_full_valid _ _ hfullT, ?_, hevict,
    List.getElem?_set_self (by rw [List.length_set, hlen0]; exact hsl), hvalid2, ?_,
    hr3, hh3, hm3⟩
  · rw [hT]; exact filledLines_tags _ _ hfullT
  · rw [hT, List.map_set, filledLines_tags _ _ hfullT]
    simp

theorem C8_lru_evicts_oldest_witness :
    (1 ≤ (initPar 1 1 2).s ∧ (initPar 1 1 2).s + (initPar 1 1 2).b ≤ 63 ∧
      ([0, 4] : List Nat).length = (initPar 1 1 2).E ∧
      (initPar 1 1 2).E < 2147483648 ∧
      (∀ a ∈ ([0, 4] ++ [8] : List Nat), setIndex (initPar 1 1 2) a = some 0) ∧
      (([0, 4] ++ [8] : List Nat).map (inputTag (initPar 1 1 2))).Nodup) ∧
    ∃ (Cache1 Cache2 Cache3 : cache) (qs1 qs2 : cacheSet) (par3 : cache_param_t),
      runAll (initCache (2 ^ (initPar 1 1 2).s) (initPar 1 1 2).E (2 ^ (initPar 1 1 2).b))
          (initPar 1 1 2) [0, 4] =
        some ({ initPar 1 1 2 with
                misses := (initPar 1 1 2).misses + ((initPar 1 1 2).E : Nat) }, Cache1) ∧
      Cache1.Sets[0]? = some qs1 ∧ (∀ l ∈ qs1.lines, l.valid = true) ∧
      qs1.lines.map (fun l => some l.tag) = ([0, 4] : List Nat).map (inputTag (initPar 1 1 2)) ∧
      run Cache1 { initPar 1 1 2 with
                   misses := (initPar 1 1 2).misses + ((initPar 1 1 2).E : Nat) } 8 =
        some ({ initPar 1 1 2 with
                misses := (initPar 1 1 2).misses + ((initPar 1 1 2).E : Nat) + 1,
                evictions := (initPar 1 1 2).evictions + 1 }, Cache2) ∧
      Cache2.Sets[0]? = some qs2 ∧ (∀ l ∈ qs2.lines, l.valid = true) ∧
      qs2.lines.map (fun l => some l.tag) = ([8, 4] : List Nat).map (inputTag (initPar 1 1 2)) ∧
      run Cache2 { initPar 1 1 2 with
                   misses := (initPar 1 1 2).misses + ((initPar 1 1 2).E : Nat) + 1,
                   evictions := (initPar 1 1 2).evictions + 1 } 0 = some (par3, Cache3) ∧
      par3.hits = (initPar 1 1 2).hits ∧
      par3.misses = (initPar 1 1 2).misses + ((initPar 1 1 2).E : Nat) + 2 :=
  ⟨⟨by decide, by decide, by decide, by decide, by decide, by decide⟩,
    C8_lru_evicts_oldest (initPar 1 1 2) 0 [4] 8 0 (by decide) (by decide) (by decide)
      (by decide) (by decide) (by decide)⟩

/-! ## The replacement policy against true LRU -/

/-- C1, failing input: geometry `s = 1`, `b = 1`, `E = 2`, addresses 0, 4, 0, 8, 0 (all
in set 0, tags 0, 1, 0, 2, 0).  `run` ends with hits 1, misses 4, evictions 2: the hit
on tag 0 only raises its `lastUsed` from 1 to 2, level with tag 1, so the miss on tag 2
overwrites tag 0 (the line referenced last) and the final access to tag 0 misses.  The
reference true-LRU simulator ends with hits 2, misses 3, evictions 1. -/
theorem C1_run_differs_from_true_lru :
    (runAll (initCache (2 ^ 1) 2 (2 ^ 1)) (initPar 1 1 2) [0, 4, 0, 8, 0]).map
        (fun r => (r.1.hits, r.1.misses, r.1.evictions)) = some (1, 4, 2) ∧
    (runAll (initCache (2 ^ 1) 2 (2 ^ 1)) (initPar 1 1 2) [0, 4, 0, 8]).map
        (fun r => lineAt r.2 0 0) = some (some ⟨3, true, 2⟩) ∧
    (specRun 1 1 (specInit 1 2) [0, 4, 0, 8, 0]).hits = 2 ∧
    (specRun 1 1 (specInit 1 2) [0, 4, 0, 8, 0]).misses = 3 ∧
    (specRun 1 1 (specInit 1 2) [0, 4, 0, 8, 0]).evictions = 1 := by
  decide

/-- C9, failing input: geometry `s = 1`, `b = 1`, `E = 2`, addresses 0, 4, 0 on the fresh
cache.  The two fills give lines 0 and 1 of set 0 the `lastUsed` values 1 and 2, the
hit on line 0 raises its value to 2: the reached state has two valid lines of one set
with equal `lastUsed`. -/
theorem C9_equal_lastUsed_reached :
    runAll (initCache (2 ^ 1) 2 (2 ^ 1)) (initPar 1 1 2) [0, 4, 0] =
      some ({ initPar 1 1 2 with hits := 1, misses := 2 },
        ⟨[⟨[⟨2, true, 0⟩, ⟨2, true, 1⟩]⟩, ⟨[⟨0, false, 0⟩, ⟨0, false, 0⟩]⟩]⟩) ∧
    lineAt ⟨[⟨[⟨2, true, 0⟩, ⟨2, true, 1⟩]⟩, ⟨[⟨0, false, 0⟩, ⟨0, false, 0⟩]⟩]⟩ 0 0 =
      some ⟨2, true, 0⟩ ∧
    lineAt ⟨[⟨[⟨2, true, 0⟩, ⟨2, true, 1⟩]⟩, ⟨[⟨0, false, 0⟩, ⟨0, false, 0⟩]⟩]⟩ 0 1 =
      some ⟨2, true, 1⟩ := by
  decide

/-! ## Block offset and ignored records -/

theorem run_congr_addr (Cache : cache) (par : cache_param_t) (A A1 : Nat)
    (h1 : inputTag par A = inputTag par A1) (h2 : setIndex par A = setIndex par A1) :
    run Cache par A = run Cache par A1 := by
  unfold run
  rw [h1, h2]

/-- C11: for `s ≥ 1`, `s + b ≤ 63`, `E ≥ 1`, every cache of that shape, all counters and
every two addresses of the same block (`A / 2^b = A1 / 2^b`): `run` computes the same
tag and the same set index for both, returns for both, and returns the same counters and
the same cache; the block offset has no influence. -/
theorem C11_block_offset_irrelevant (Cache : cache) (par : cache_param_t) (A A1 : Nat)
    (hs : 1 ≤ par.s) (hsb : par.s + par.b ≤ 63) (hE : 1 ≤ par.E)
    (hshape : Shape par.s par.E Cache) (hblock : A / 2 ^ par.b = A1 / 2 ^ par.b) :
    inputTag par A = inputTag par A1 ∧ setIndex par A = setIndex par A1 ∧
    ∃ r, run Cache par A = some r ∧ run Cache par A1 = some r := by
  have ht : inputTag par A = inputTag par A1 := by
    rw [inputTag_eq par A hsb, inputTag_eq par A1 hsb, Nat.add_comm par.s par.b, pow_add,
      ← Nat.div_div_eq_div_mul, ← Nat.div_div_eq_div_mul, hblock]
  have hi : setIndex par A = setIndex par A1 := by
    rw [setIndex_eq par A hs hsb, setIndex_eq par A1 hs hsb, hblock]
  obtain ⟨p1, c1, hr, _⟩ := run_step Cache par A hs hsb hE hshape
  exact ⟨ht, hi, (p1, c1), hr, by rw [← run_congr_addr Cache par A A1 ht hi]; exact hr⟩

theorem C11_block_offset_irrelevant_witness :
    (1 ≤ (initPar 1 2 2).s ∧ (initPar 1 2 2).s + (initPar 1 2 2).b ≤ 63 ∧
      1 ≤ (initPar 1 2 2).E ∧ Shape (initPar 1 2 2).s (initPar 1 2 2).E exCache ∧
      9 / 2 ^ (initPar 1 2 2).b = 11 / 2 ^ (initPar 1 2 2).b) ∧
    inputTag (initPar 1 2 2) 9 = inputTag (initPar 1 2 2) 11 ∧
    setIndex (initPar 1 2 2) 9 = setIndex (initPar 1 2 2) 11 ∧
    ∃ r, run exCache (initPar 1 2 2) 9 = some r ∧ run exCache (initPar 1 2 2) 11 = some r :=
  ⟨by decide, C11_block_offset_irrelevant exCache (initPar 1 2 2) 9 11 (by decide) (by decide)
    (by decide) (by decide) (by decide)⟩

theorem traceLoop_only_I : ∀ (trace : List traceRec) (Cache : cache) (par : cache_param_t),
    (∀ r ∈ trace, r.traceCmd = 'I') → traceLoop Cache par trace = some (par, Cache) := by
  intro trace
  induction trace with
  | nil => intro Cache par _; rfl
  | cons r rest ih =>
    intro Cache par h
    have hd : dispatch Cache par r = some (par, Cache) := by
      unfold dispatch
      rw [if_pos (h r (List.mem_cons_self _ _))]
    rw [traceLoop_cons _ _ _ _ _ _ hd]
    exact ih Cache par (fun x hx => h x (List.mem_cons_of_mem _ hx))

/-- C14: for every cache and all counters, the `switch` of the trace loop on a record
whose command is not `L`, `S` or `M` (so `I` or any other character) returns at once
with the cache and the parameter record (the three counters included) as they were, no
call of `run` being made; and a trace of `I` records only, from the fresh cache and
zero counters of any geometry, ends with `hits = 0`, `misses = 0`, `evictions = 0`. -/
theorem C14_other_records_ignored (Cache : cache) (par : cache_param_t) (r : traceRec)
    (hL : r.traceCmd ≠ 'L') (hS : r.traceCmd ≠ 'S') (hM : r.traceCmd ≠ 'M') :
    dispatch Cache par r = some (par, Cache) ∧
    ∀ (s b E : Nat) (trace : List traceRec), (∀ x ∈ trace, x.traceCmd = 'I') →
      ∃ par1 Cache1,
        traceLoop (initCache (2 ^ s) E (2 ^ b)) (initPar s b E) trace = some (par1, Cache1) ∧
        par1.hits = 0 ∧ par1.misses = 0 ∧ par1.evictions = 0 := by
  constructor
  · unfold dispatch
    rw [if_neg hL, if_neg hS, if_neg hM]
    split <;> rfl
  · intro s b E trace h
    exact ⟨_, _, traceLoop_only_I trace _ _ h, rfl, rfl, rfl⟩

theorem C14_other_records_ignored_witness :
    ((⟨'I', 0x400d7d4⟩ : traceRec).traceCmd ≠ 'L' ∧
      (⟨'I', 0x400d7d4⟩ : traceRec).traceCmd ≠ 'S' ∧
      (⟨'I', 0x400d7d4⟩ : traceRec).traceCmd ≠ 'M') ∧
    dispatch exCache (initPar 1 1 2) ⟨'I', 0x400d7d4⟩ = some (initPar 1 1 2, exCache) ∧
    ∀ (s b E : Nat) (trace : List traceRec), (∀ x ∈ trace, x.traceCmd = 'I') →
      ∃ par1 Cache1,
        traceLoop (initCache (2 ^ s) E (2 ^ b)) (initPar s b E) trace = some (par1, Cache1) ∧
        par1.hits = 0 ∧ par1.misses = 0 ∧ par1.evictions = 0 :=
  ⟨by decide, C14_other_records_ignored exCache (initPar 1 1 2) ⟨'I', 0x400d7d4⟩
    (by decide) (by decide) (by decide)⟩

/-! ## `initCache`, the argument check of `main`, scenario A -/

theorem initLinesFrom_eq : ∀ (n : Nat) (acc : List setLine),
    initLinesFrom n acc = acc ++ List.replicate n ⟨0, false, 0⟩ := by
  intro n
  induction n with
  | zero => intro acc; simp [initLinesFrom]
  | succ n ih =>
    intro acc
    rw [initLinesFrom, ih, List.append_assoc, List.replicate_succ]
    rfl

theorem initSetsFrom_eq (lines : Nat) : ∀ (n : Nat) (acc : List cacheSet),
    initSetsFrom lines n acc =
      acc ++ List.replicate n ⟨List.replicate lines ⟨0, false, 0⟩⟩ := by
  intro n
  induction n with
  | zero => intro acc; simp [initSetsFrom]
  | succ n ih =>
    intro acc
    rw [initSetsFrom, ih, List.append_assoc, List.replicate_succ, initLinesFrom_eq]
    rfl

theorem initCacheLoops_eq (sets lines blockSize : Nat) :
    initCacheLoops sets lines blockSize = initCache sets lines blockSize := by
  simp only [initCacheLoops, initCache, initSetsFrom_eq, List.nil_append]

/-- C15: for all `sets` and `lines` (in particular `sets ≥ 1`, `lines ≥ 1`) the two loops
of `initCache` end with exactly `sets` sets of exactly `lines` lines each, `sets * lines`
lines in total, every line with `lastUsed = 0`, `valid = 0`, `tag = 0`; the result does
not depend on `blockSize`, and it is the closed form `initCache` of this development. -/
theorem C15_initCache_all_invalid (sets lines blockSize : Nat) :
    (initCacheLoops sets lines blockSize).Sets.length = sets ∧
    (∀ set ∈ (initCacheLoops sets lines blockSize).Sets,
      set.lines.length = lines ∧ ∀ l ∈ set.lines, l = ⟨0, false, 0⟩) ∧
    (((initCacheLoops sets lines blockSize).Sets.map (fun set => set.lines.length)).sum
      = sets * lines) ∧
    (∀ other : Nat, initCacheLoops sets lines other = initCacheLoops sets lines blockSize) ∧
    initCacheLoops sets lines blockSize = initCache sets lines blockSize := by
  refine ⟨?_, ?_, ?_, ?_, initCacheLoops_eq _ _ _⟩
  · rw [initCacheLoops_eq]; simp [initCache]
  · intro set hset
    rw [initCacheLoops_eq] at hset
    simp only [initCache] at hset
    rw [List.eq_of_mem_replicate hset]
    refine ⟨by simp, ?_⟩
    intro l hl
    exact List.eq_of_mem_replicate hl
  · rw [initCacheLoops_eq]
    simp [initCache]
  · intro other
    rfl

/-- C16, counterexample: with a trace file named, the check of `main` lets pass `E = -1`
(`s = 1`, `b = 1`), `s + b = 80 > 64` (`s = 40`, `b = 40`, `E = 1`), a negative `s` and
a negative `b`: the program goes on to `initCache`.  And where the check does end the
program (`E = 0`), it does so inside `printUsage`, with exit status 0, not 1. -/
theorem C16_check_accepts_bad_geometry :
    argumentCheck 1 (-1) 1 (traceFileAtCheck (some "yi.trace") none) = Except.ok () ∧
    argumentCheck 40 1 40 (traceFileAtCheck (some "yi.trace") none) = Except.ok () ∧
    argumentCheck (-1) 1 1 (traceFileAtCheck (some "yi.trace") none) = Except.ok () ∧
    argumentCheck 1 1 (-1) (traceFileAtCheck (some "yi.trace") none) = Except.ok () ∧
    argumentCheck 1 0 1 (traceFileAtCheck (some "yi.trace") none) = Except.error 0 := by
  refine ⟨rfl, rfl, rfl, rfl, rfl⟩

/-- C16, amended: the required-argument check of `main` ends the program (message and
usage printed, no cache built) exactly when `s = 0` or `E = 0` or `b = 0` or the pointer
`trace_file` is `NULL` at the check, which after `-t file` it is not and without `-t`
depends on the uninitialised value; in every other case, whatever the signs of `s`, `E`,
`b` and the size of `s + b`, the program goes on to `initCache`. -/
theorem C16_check_rejects_zero_only (s E b : Int) (t_given uninit : Option String) :
    ((∃ status, argumentCheck s E b (traceFileAtCheck t_given uninit) =
        Except.error status) ↔
      (s = 0 ∨ E = 0 ∨ b = 0 ∨ (t_given = none ∧ uninit = none))) ∧
    (¬ (s = 0 ∨ E = 0 ∨ b = 0 ∨ (t_given = none ∧ uninit = none)) →
      argumentCheck s E b (traceFileAtCheck t_given uninit) = Except.ok ()) := by
  have hcond : missingArgument s E b (traceFileAtCheck t_given uninit) = true ↔
      (s = 0 ∨ E = 0 ∨ b = 0 ∨ (t_given = none ∧ uninit = none)) := by
    cases t_given <;> cases uninit <;> simp [missingArgument, traceFileAtCheck, or_assoc]
  constructor
  · constructor
    · rintro ⟨status, h⟩
      by_contra hn
      have hf : missingArgument s E b (traceFileAtCheck t_given uninit) = false := by
        rw [← Bool.not_eq_true]; exact fun h1 => hn (hcond.1 h1)
      simp [argumentCheck, hf] at h
    · intro h
      refine ⟨0, ?_⟩
      simp [argumentCheck, hcond.2 h, printUsage]
  · intro hn
    have hf : missingArgument s E b (traceFileAtCheck t_given uninit) = false := by
      rw [← Bool.not_eq_true]; exact fun h1 => hn (hcond.1 h1)
    simp [argumentCheck, hf]

/-- C13, counterexample: geometry `s = 0`, `b = 0`, `E = 1`.  The check of `main` rejects
it, and `run` on the fresh cache has no defined result for the first address already:
`address << 64` and `temp >> 64` are undefined shifts.  The reference simulator, which is
defined there, ends the trace 0x10, 0x20, 0x10 with two evictions, not one. -/
theorem C13_scenario_A_not_run :
    missingArgument 0 1 0 (some "a.trace") = true ∧
    tagSize (initPar 0 0 1) = 64 ∧
    run (initCache (2 ^ 0) 1 (2 ^ 0)) (initPar 0 0 1) 0x10 = none ∧
    traceLoop (initCache (2 ^ 0) 1 (2 ^ 0)) (initPar 0 0 1)
      [⟨'L', 0x10⟩, ⟨'L', 0x20⟩, ⟨'L', 0x10⟩] = none ∧
    (specRun 0 0 (specInit 0 1) [0x10, 0x20, 0x10]).hits = 0 ∧
    (specRun 0 0 (specInit 0 1) [0x10, 0x20, 0x10]).misses = 3 ∧
    (specRun 0 0 (specInit 0 1) [0x10, 0x20, 0x10]).evictions = 2 := by
  decide

/-- C13, amended: with the geometry `s = 1`, `b = 1`, `E = 1` (accepted by `main`; both
addresses fall into set 0) and the fresh cache, the trace `L 10`, `L 20`, `L 10` ends
with `hits = 0`, `misses = 3`, `evictions = 2`. -/
theorem C13_scenario_A_direct_mapped :
    missingArgument 1 1 1 (some "a.trace") = false ∧
    (traceLoop (initCache (2 ^ 1) 1 (2 ^ 1)) (initPar 1 1 1)
      [⟨'L', 0x10⟩, ⟨'L', 0x20⟩, ⟨'L', 0x10⟩]).map
        (fun r => (r.1.hits, r.1.misses, r.1.evictions)) = some (0, 3, 2) := by
  decide

/-! ## One hit at most, and indices in range -/

theorem scan_whole (t : Nat) (ls : List setLine) (E : Nat) (h : Int) (hlen : ls.length = E) :
    scanFrom t E 0 ls h true =
      some (ls.map (bump t), h + (ls.countP (isHit t) : Nat), ls.all (fun l => l.valid)) := by
  have hscan := scanFrom_spec t ls [] h true
  simp only [List.length_nil, List.nil_append, Bool.true_and, hlen] at hscan
  exact hscan

/-- C17: for `s ≥ 1`, `s + b ≤ 63`, `E ≥ 1` and every cache reachable from the fresh
cache by calls of `run`: no set holds two valid lines with the same tag; hence for
every address the hit scan of `run` (which goes through all `E` lines) ends with
`hits` raised by at most one, and `run` returns with exactly one of `hits` and `misses`
raised, by exactly one. -/
theorem C17_one_hit_or_one_miss (Cache : cache) (par : cache_param_t)
    (hs : 1 ≤ par.s) (hsb : par.s + par.b ≤ 63) (hE : 1 ≤ par.E)
    (hreach : Reachable par.s par.b par.E Cache) :
    (∀ set ∈ Cache.Sets, DistinctTags set.lines) ∧
    ∀ A : Nat, ∃ (t si : Nat) (qs : cacheSet) (ls : List setLine) (hits : Int)
        (cacheFull : Bool) (par1 : cache_param_t) (Cache1 : cache),
      inputTag par A = some t ∧ setIndex par A = some si ∧ Cache.Sets[si]? = some qs ∧
      scanFrom t par.E 0 qs.lines par.hits true = some (ls, hits, cacheFull) ∧
      hits ≤ par.hits + 1 ∧
      run Cache par A = some (par1, Cache1) ∧
      ((par1.hits = par.hits + 1 ∧ par1.misses = par.misses) ∨
        (par1.hits = par.hits ∧ par1.misses = par.misses + 1)) := by
  have hinv := reachable_inv par.s par.b par.E Cache hs hsb hE hreach
  refine ⟨hinv.2, ?_⟩
  intro A
  obtain ⟨t, si, qs, ht, hsi, hqs, hlen⟩ := target_exists Cache par A hs hsb hinv.1
  have hd : DistinctTags qs.lines := hinv.2 qs (List.getElem?_mem hqs)
  have hle := count_hit_le_one t qs.lines hd
  have hscan := scan_whole t qs.lines par.E par.hits hlen
  rcases run_cases Cache par A t si qs hE ht hsi hqs hlen with
    ⟨hpos, hr⟩ | ⟨_, _, k, lk, mx, _, _, hr⟩ | ⟨_, k, lk, _, _, mx, _, _, _, _, hr⟩
  · refine ⟨t, si, qs, _, _, _, _, _, ht, hsi, hqs, hscan, by omega, hr, Or.inl ⟨?_, rfl⟩⟩
    have h1 : qs.lines.countP (isHit t) = 1 := by omega
    rw [h1]; rfl
  · exact ⟨t, si, qs, _, _, _, _, _, ht, hsi, hqs, hscan, by omega, hr, Or.inr ⟨rfl, rfl⟩⟩
  · exact ⟨t, si, qs, _, _, _, _, _, ht, hsi, hqs, hscan, by omega, hr, Or.inr ⟨rfl, rfl⟩⟩

theorem C17_one_hit_or_one_miss_witness :
    (1 ≤ (initPar 1 1 2).s ∧ (initPar 1 1 2).s + (initPar 1 1 2).b ≤ 63 ∧
      1 ≤ (initPar 1 1 2).E ∧
      Reachable (initPar 1 1 2).s (initPar 1 1 2).b (initPar 1 1 2).E exCache) ∧
    (∀ set ∈ exCache.Sets, DistinctTags set.lines) ∧
    ∀ A : Nat, ∃ (t si : Nat) (qs : cacheSet) (ls : List setLine) (hits : Int)
        (cacheFull : Bool) (par1 : cache_param_t) (Cache1 : cache),
      inputTag (initPar 1 1 2) A = some t ∧ setIndex (initPar 1 1 2) A = some si ∧
      exCache.Sets[si]? = some qs ∧
      scanFrom t (initPar 1 1 2).E 0 qs.lines (initPar 1 1 2).hits true =
        some (ls, hits, cacheFull) ∧
      hits ≤ (initPar 1 1 2).hits + 1 ∧
      run exCache (initPar 1 1 2) A = some (par1, Cache1) ∧
      ((par1.hits = (initPar 1 1 2).hits + 1 ∧ par1.misses = (initPar 1 1 2).misses) ∨
        (par1.hits = (initPar 1 1 2).hits ∧ par1.misses = (initPar 1 1 2).misses + 1)) :=
  ⟨⟨by decide, by decide, by decide, ⟨[0, 4], _, rfl⟩⟩,
    C17_one_hit_or_one_miss exCache (initPar 1 1 2) (by decide) (by decide) (by decide)
      ⟨[0, 4], _, rfl⟩⟩

/-- C18: for `s ≥ 1`, `s + b ≤ 63`, `E ≥ 1`, every cache of `2 ^ s` sets of `E` lines and
every address: the set index that `run` computes is below `2 ^ s` and selects a set;
the hit scan reads all its `E` lines in range; `nextEvictLine` returns an index below
`E`; when the scan leaves `cacheFull = 0` the set has an invalid line and
`nextEmptyLine` returns an index in `[0, E)`, never `-1`; and `run` returns a result,
that is, no step of it indexes out of range. -/
theorem C18_run_in_range (Cache : cache) (par : cache_param_t) (A : Nat)
    (hs : 1 ≤ par.s) (hsb : par.s + par.b ≤ 63) (hE : 1 ≤ par.E)
    (hshape : Shape par.s par.E Cache) :
    ∃ (t si : Nat) (qs : cacheSet) (ls : List setLine) (hits : Int) (cacheFull : Bool)
        (minIndex : Nat) (minUsed maxUsed : Int),
      inputTag par A = some t ∧ setIndex par A = some si ∧ si < 2 ^ par.s ∧
      Cache.Sets[si]? = some qs ∧
      scanFrom t par.E 0 qs.lines par.hits true = some (ls, hits, cacheFull) ∧
      ls.length = par.E ∧
      nextEvictLine ⟨ls⟩ par = some (minIndex, minUsed, maxUsed) ∧ minIndex < par.E ∧
      (cacheFull = false →
        (∃ l ∈ ls, l.valid = false) ∧
        ∃ k : Nat, nextEmptyLine ⟨ls⟩ par = some (k : Int) ∧ k < par.E) ∧
      (run Cache par A).isSome = true := by
  obtain ⟨t, si, qs, ht, hsi, hqs, hlen⟩ := target_exists Cache par A hs hsb hshape
  have hscan := scan_whole t qs.lines par.E par.hits hlen
  have hlen1 : (qs.lines.map (bump t)).length = par.E := by simp [hlen]
  obtain ⟨⟨mi, mn, mx⟩, hev, hinv⟩ := nextEvictLine_spec (qs.lines.map (bump t)) par hE hlen1
  have hsl : si < 2 ^ par.s := by
    rw [← hshape.1]; exact getElem?_lt _ _ _ hqs
  obtain ⟨p1, c1, hr, _⟩ := run_step Cache par A hs hsb hE hshape
  refine ⟨t, si, qs, _, _, _, mi, mn, mx, ht, hsi, hsl, hqs, hscan, hlen1, hev, ?_, ?_,
    by rw [hr]; rfl⟩
  · have := hinv.1
    simp only [] at this
    omega
  · intro hcf
    have hex : ∃ l ∈ qs.lines.map (bump t), l.valid = false := by
      have hne : ¬ (∀ l ∈ qs.lines, l.valid = true) := by
        intro hall
        rw [← List.all_eq_true] at hall
        rw [hall] at hcf
        cases hcf
      push_neg at hne
      obtain ⟨l, hl, hv⟩ := hne
      refine ⟨bump t l, List.mem_map_of_mem _ hl, ?_⟩
      have : (bump t l).valid = l.valid := by unfold bump; split <;> rfl
      rw [this]; simpa using hv
    refine ⟨hex, ?_⟩
    have hempty := nextEmptyLineFrom_spec (qs.lines.map (bump t)) par.E 0 (by omega)
      (by intro j l hj; omega)
    rcases hempty with ⟨hall, _⟩ | ⟨k, lk, hk, hlk, _, _⟩
    · obtain ⟨l, hl, hv⟩ := hex
      rw [hall l hl] at hv
      cases hv
    · refine ⟨k, hk, ?_⟩
      have := getElem?_lt _ _ _ hlk
      omega

theorem C18_run_in_range_witness :
    (1 ≤ (initPar 1 1 2).s ∧ (initPar 1 1 2).s + (initPar 1 1 2).b ≤ 63 ∧
      1 ≤ (initPar 1 1 2).E ∧ Shape (initPar 1 1 2).s (initPar 1 1 2).E exCache) ∧
    ∃ (t si : Nat) (qs : cacheSet) (ls : List setLine) (hits : Int) (cacheFull : Bool)
        (minIndex : Nat) (minUsed maxUsed : Int),
      inputTag (initPar 1 1 2) 0xFFFFFFFFFFFFFFFF = some t ∧
      setIndex (initPar 1 1 2) 0xFFFFFFFFFFFFFFFF = some si ∧ si < 2 ^ (initPar 1 1 2).s ∧
      exCache.Sets[si]? = some qs ∧
      scanFrom t (initPar 1 1 2).E 0 qs.lines (initPar 1 1 2).hits true =
        some (ls, hits, cacheFull) ∧
      ls.length = (initPar 1 1 2).E ∧
      nextEvictLine ⟨ls⟩ (initPar 1 1 2) = some (minIndex, minUsed, maxUsed) ∧
      minIndex < (initPar 1 1 2).E ∧
      (cacheFull = false →
        (∃ l ∈ ls, l.valid = false) ∧
        ∃ k : Nat, nextEmptyLine ⟨ls⟩ (initPar 1 1 2) = some (k : Int) ∧
          k < (initPar 1 1 2).E) ∧
      (run exCache (initPar 1 1 2) 0xFFFFFFFFFFFFFFFF).isSome = true :=
  ⟨⟨by decide, by decide, by decide, by decide⟩,
    C18_run_in_range exCache (initPar 1 1 2) 0xFFFFFFFFFFFFFFFF (by decide) (by decide)
      (by decide) (by decide)⟩

/-! ## What one call of `run` changes -/

/-- C19, counterexample: a cache of the shape `s = 1`, `E = 2` whose set 0 holds the tag 0
in both lines, both valid.  `run` with address 0 (geometry `s = 1`, `b = 1`, `E = 2`)
goes through the whole set, raises `lastUsed` of both lines and counts two hits: more
than one line of the cache has changed. -/
theorem C19_two_lines_change :
    Shape 1 2 ⟨[⟨[⟨1, true, 0⟩, ⟨2, true, 0⟩]⟩, ⟨[⟨0, false, 0⟩, ⟨0, false, 0⟩]⟩]⟩ ∧
    run ⟨[⟨[⟨1, true, 0⟩, ⟨2, true, 0⟩]⟩, ⟨[⟨0, false, 0⟩, ⟨0, false, 0⟩]⟩]⟩
        (initPar 1 1 2) 0 =
      some ({ initPar 1 1 2 with hits := 2 },
        ⟨[⟨[⟨2, true, 0⟩, ⟨3, true, 0⟩]⟩, ⟨[⟨0, false, 0⟩, ⟨0, false, 0⟩]⟩]⟩) ∧
    lineAt ⟨[⟨[⟨1, true, 0⟩, ⟨2, true, 0⟩]⟩, ⟨[⟨0, false, 0⟩, ⟨0, false, 0⟩]⟩]⟩ 0 0 ≠
      lineAt ⟨[⟨[⟨2, true, 0⟩, ⟨3, true, 0⟩]⟩, ⟨[⟨0, false, 0⟩, ⟨0, false, 0⟩]⟩]⟩ 0 0 ∧
    lineAt ⟨[⟨[⟨1, true, 0⟩, ⟨2, true, 0⟩]⟩, ⟨[⟨0, false, 0⟩, ⟨0, false, 0⟩]⟩]⟩ 0 1 ≠
      lineAt ⟨[⟨[⟨2, true, 0⟩, ⟨3, true, 0⟩]⟩, ⟨[⟨0, false, 0⟩, ⟨0, false, 0⟩]⟩]⟩ 0 1 := by
  decide

/-- C19, amended: for `s ≥ 1`, `s + b ≤ 63`, `E ≥ 1` and every cache of that shape in
which no set holds two valid lines with the same tag (every cache reachable from the
fresh one is such a cache): `run` returns, and the new cache is the old one with one
line `k` of the set selected by the set index replaced (`old` by `new`), so every other
line of that set and every line of every other set is unchanged; `s`, `b`, `E` are
unchanged; `new` is valid when `old` was; and when `hits` has changed (a hit), `new`
has the tag and the valid flag of `old`. -/
theorem C19_run_changes_one_line (Cache : cache) (par : cache_param_t) (A : Nat)
    (hs : 1 ≤ par.s) (hsb : par.s + par.b ≤ 63) (hE : 1 ≤ par.E)
    (hshape : Shape par.s par.E Cache)
    (hdistinct : ∀ set ∈ Cache.Sets, DistinctTags set.lines) :
    ∃ (si k : Nat) (qs : cacheSet) (old new : setLine) (par1 : cache_param_t)
        (Cache1 : cache),
      setIndex par A = some si ∧ Cache.Sets[si]? = some qs ∧ qs.lines[k]? = some old ∧
      run Cache par A = some (par1, Cache1) ∧
      Cache1.Sets = Cache.Sets.set si ⟨qs.lines.set k new⟩ ∧
      par1.s = par.s ∧ par1.b = par.b ∧ par1.E = par.E ∧
      (old.valid = true → new.valid = true) ∧
      (par1.hits ≠ par.hits → new.tag = old.tag ∧ new.valid = old.valid) := by
  obtain ⟨t, si, qs, ht, hsi, hqs, hlen⟩ := target_exists Cache par A hs hsb hshape
  have hd : DistinctTags qs.lines := hdistinct qs (List.getElem?_mem hqs)
  rcases run_cases Cache par A t si qs hE ht hsi hqs hlen with
    ⟨hpos, hr⟩ | ⟨_, _, k, lk, mx, _, hlk, hr⟩ | ⟨_, k, lk, _, _, mx, _, hlk, _, _, hr⟩
  · rw [List.countP_pos_iff] at hpos
    obtain ⟨lk, hmem, hh⟩ := hpos
    obtain ⟨k, hk⟩ := List.getElem?_of_mem hmem
    simp only [isHit, Bool.and_eq_true, decide_eq_true_eq] at hh
    rw [map_bump_eq_set t qs.lines hd k lk hk hh.1 hh.2] at hr
    exact ⟨si, k, qs, lk, _, _, _, hsi, hqs, hk, hr, rfl, rfl, rfl, rfl, fun h => h,
      fun _ => ⟨rfl, rfl⟩⟩
  · exact ⟨si, k, qs, lk, _, _, _, hsi, hqs, hlk, hr, rfl, rfl, rfl, rfl, fun h => h,
      fun h => absurd rfl h⟩
  · exact ⟨si, k, qs, lk, _, _, _, hsi, hqs, hlk, hr, rfl, rfl, rfl, rfl, fun _ => rfl,
      fun h => absurd rfl h⟩

theorem C19_run_changes_one_line_witness :
    (1 ≤ (initPar 1 1 2).s ∧ (initPar 1 1 2).s + (initPar 1 1 2).b ≤ 63 ∧
      1 ≤ (initPar 1 1 2).E ∧ Shape (initPar 1 1 2).s (initPar 1 1 2).E exCache ∧
      ∀ set ∈ exCache.Sets, DistinctTags set.lines) ∧
    ∃ (si k : Nat) (qs : cacheSet) (old new : setLine) (par1 : cache_param_t)
        (Cache1 : cache),
      setIndex (initPar 1 1 2) 4 = some si ∧ exCache.Sets[si]? = some qs ∧
      qs.lines[k]? = some old ∧
      run exCache (initPar 1 1 2) 4 = some (par1, Cache1) ∧
      Cache1.Sets = exCache.Sets.set si ⟨qs.lines.set k new⟩ ∧
      par1.s = (initPar 1 1 2).s ∧ par1.b = (initPar 1 1 2).b ∧
      par1.E = (initPar 1 1 2).E ∧
      (old.valid = true → new.valid = true) ∧
      (par1.hits ≠ (initPar 1 1 2).hits → new.tag = old.tag ∧ new.valid = old.valid) :=
  ⟨⟨by decide, by decide, by decide, by decide,
      (reachable_inv 1 1 2 exCache (by decide) (by decide) (by decide) ⟨[0, 4], _, rfl⟩).2⟩,
    C19_run_changes_one_line exCache (initPar 1 1 2) 4 (by decide) (by decide) (by decide)
      (by decide)
      (reachable_inv 1 1 2 exCache (by decide) (by decide) (by decide) ⟨[0, 4], _, rfl⟩).2⟩

/-! ## Misses, evictions and valid lines -/

theorem sum_set_nat : ∀ (m : List Nat) (i v y : Nat), m[i]? = some v →
    (m.set i y).sum + v = m.sum + y := by
  intro m
  induction m with
  | nil => intro i v y h; simp at h
  | cons x xs ih =>
    intro i v y h
    cases i with
    | zero =>
      simp only [List.getElem?_cons_zero, Option.some.injEq] at h
      subst h
      simp only [List.set_cons_zero, List.sum_cons]
      omega
    | succ i =>
      simp only [List.getElem?_cons_succ] at h
      have := ih i v y h
      simp only [List.set_cons_succ, List.sum_cons]
      omega

theorem countP_set_valid : ∀ (ls : List setLine) (k : Nat) (old new : setLine),
    ls[k]? = some old →
    (ls.set k new).countP (fun l => l.valid) + (if old.valid then 1 else 0) =
      ls.countP (fun l => l.valid) + (if new.valid then 1 else 0) := by
  intro ls
  induction ls with
  | nil => intro k old new h; simp at h
  | cons x xs ih =>
    intro k old new h
    cases k with
    | zero =>
      simp only [List.getElem?_cons_zero, Option.some.injEq] at h
      subst h
      simp only [List.set_cons_zero, List.countP_cons]
      omega
    | succ k =>
      simp only [List.getElem?_cons_succ] at h
      have := ih k old new h
      simp only [List.set_cons_succ, List.countP_cons]
      omega

theorem countP_valid_map_bump (t : Nat) (ls : List setLine) :
    (ls.map (bump t)).countP (fun l => l.valid) = ls.countP (fun l => l.valid) := by
  rw [List.countP_map]
  congr 1
  funext l
  simp only [Function.comp]
  unfold bump
  split <;> rfl

theorem validLines_set (c : cache) (si : Nat) (qs : cacheSet) (ls : List setLine)
    (hqs : c.Sets[si]? = some qs) :
    validLines ⟨c.Sets.set si ⟨ls⟩⟩ + qs.lines.countP (fun l => l.valid) =
      validLines c + ls.countP (fun l => l.valid) := by
  unfold validLines
  simp only [List.map_set]
  apply sum_set_nat
  rw [List.getElem?_map, hqs]
  rfl

theorem validLines_le (E : Nat) : ∀ (sets : List cacheSet),
    (∀ set ∈ sets, set.lines.length = E) →
    (sets.map (fun set => set.lines.countP (fun l => l.valid))).sum ≤ sets.length * E := by
  intro sets
  induction sets with
  | nil => intro _; simp
  | cons x xs ih =>
    intro h
    have h1 := ih (fun set hset => h set (List.mem_cons_of_mem _ hset))
    have h2 : x.lines.countP (fun l => l.valid) ≤ E := by
      rw [← h x (List.mem_cons_self _ _)]
      exact List.countP_le_length _
    simp only [List.map_cons, List.sum_cons, List.length_cons]
    rw [Nat.add_mul, Nat.one_mul]
    omega

theorem run_valid_step (Cache : cache) (par : cache_param_t) (A : Nat)
    (hs : 1 ≤ par.s) (hsb : par.s + par.b ≤ 63) (hE : 1 ≤ par.E)
    (hshape : Shape par.s par.E Cache) :
    ∃ par1 Cache1, run Cache par A = some (par1, Cache1) ∧ Shape par.s par.E Cache1 ∧
      par1.s = par.s ∧ par1.b = par.b ∧ par1.E = par.E ∧
      par1.misses + par.evictions + (validLines Cache : Int) =
        par.misses + par1.evictions + (validLines Cache1 : Int) := by
  obtain ⟨t, si, qs, ht, hsi, hqs, hlen⟩ := target_exists Cache par A hs hsb hshape
  rcases run_cases Cache par A t si qs hE ht hsi hqs hlen with
    ⟨_, hr⟩ | ⟨_, hall, k, lk, mx, _, hlk, hr⟩ | ⟨_, k, lk, _, _, mx, _, hlk, hlkv, _, hr⟩
  · refine ⟨_, _, hr, shape_set _ _ _ _ _ hshape (by simp [hlen]), rfl, rfl, rfl, ?_⟩
    have h1 := validLines_set Cache si qs (qs.lines.map (bump t)) hqs
    rw [countP_valid_map_bump] at h1
    simp only []
    omega
  · refine ⟨_, _, hr, shape_set _ _ _ _ _ hshape (by simp [hlen]), rfl, rfl, rfl, ?_⟩
    have h1 := validLines_set Cache si qs
      (qs.lines.set k { lk with tag := t, lastUsed := wrap32 (mx + 1) }) hqs
    have h2 := countP_set_valid qs.lines k lk { lk with tag := t, lastUsed := wrap32 (mx + 1) } hlk
    simp only [] at h2 ⊢
    omega
  · refine ⟨_, _, hr, shape_set _ _ _ _ _ hshape (by simp [hlen]), rfl, rfl, rfl, ?_⟩
    have h1 := validLines_set Cache si qs
      (qs.lines.set k { lk with tag := t, valid := true, lastUsed := wrap32 (mx + 1) }) hqs
    have h2 := countP_set_valid qs.lines k lk
      { lk with tag := t, valid := true, lastUsed := wrap32 (mx + 1) } hlk
    simp only [hlkv, Bool.false_eq_true, if_false, if_true] at h2 ⊢
    omega

theorem runAll_valid : ∀ (as : List Nat) (Cache : cache) (par : cache_param_t),
    1 ≤ par.s → par.s + par.b ≤ 63 → 1 ≤ par.E → Shape par.s par.E Cache →
    par.misses = par.evictions + (validLines Cache : Int) →
    ∃ par1 Cache1, runAll Cache par as = some (par1, Cache1) ∧ Shape par.s par.E Cache1 ∧
      par1.misses = par1.evictions + (validLines Cache1 : Int) := by
  intro as
  induction as with
  | nil => intro Cache par _ _ _ hshape h; exact ⟨par, Cache, rfl, hshape, h⟩
  | cons a rest ih =>
    intro Cache par hs hsb hE hshape h
    obtain ⟨p1, c1, hr, hshape1, e1, e2, e3, hcnt⟩ :=
      run_valid_step Cache par a hs hsb hE hshape
    obtain ⟨p2, c2, hr2, hshape2, h2⟩ := ih c1 p1 (by omega) (by omega) (by omega)
      (by rw [e1, e3]; exact hshape1) (by omega)
    exact ⟨p2, c2, by rw [runAll_cons _ _ _ _ _ _ hr]; exact hr2,
      by rw [← e1, ← e3]; exact hshape2, h2⟩

theorem validLines_initCache (sets lines B : Nat) : validLines (initCache sets lines B) = 0 := by
  unfold validLines initCache
  simp only [List.map_replicate]
  have : (List.replicate lines (⟨0, false, 0⟩ : setLine)).countP (fun l => l.valid) = 0 := by
    rw [List.countP_eq_zero]
    intro l hl
    rw [List.eq_of_mem_replicate hl]
    simp
  rw [this]
  simp

/-- C20: for `s ≥ 1`, `s + b ≤ 63`, `E ≥ 1` and every sequence of calls of `run` from the
fresh cache and zero counters: the calls return, and in the state reached `misses` is
`evictions` plus the number of valid lines of the whole cache; so `misses - evictions`
is at most `2 ^ s * E`. -/
theorem C20_misses_evictions_valid (s b E : Nat) (hs : 1 ≤ s) (hsb : s + b ≤ 63)
    (hE : 1 ≤ E) (addrs : List Nat) :
    ∃ par1 Cache1,
      runAll (initCache (2 ^ s) E (2 ^ b)) (initPar s b E) addrs = some (par1, Cache1) ∧
      par1.misses = par1.evictions + (validLines Cache1 : Int) ∧
      par1.misses - par1.evictions ≤ ((2 ^ s * E : Nat) : Int) := by
  obtain ⟨p1, c1, hr, hshape, hcnt⟩ := runAll_valid addrs (initCache (2 ^ s) E (2 ^ b))
    (initPar s b E) hs hsb hE (initCache_inv s E (2 ^ b)).1
    (by rw [validLines_initCache]; rfl)
  refine ⟨p1, c1, hr, hcnt, ?_⟩
  have hle := validLines_le E c1.Sets hshape.2
  rw [hshape.1] at hle
  have hle2 : validLines c1 ≤ 2 ^ s * E := hle
  have : ((validLines c1 : Nat) : Int) ≤ ((2 ^ s * E : Nat) : Int) := by exact_mod_cast hle2
  omega

theorem C20_misses_evictions_valid_witness :
    (1 ≤ 1 ∧ 1 + 1 ≤ 63 ∧ 1 ≤ 2) ∧
    ∃ par1 Cache1,
      runAll (initCache (2 ^ 1) 2 (2 ^ 1)) (initPar 1 1 2) [0, 4, 0, 8, 2] =
        some (par1, Cache1) ∧
      par1.misses = par1.evictions + (validLines Cache1 : Int) ∧
      par1.misses - par1.evictions ≤ ((2 ^ 1 * 2 : Nat) : Int) :=
  ⟨by decide, C20_misses_evictions_valid 1 1 2 (by decide) (by decide) (by decide)
    [0, 4, 0, 8, 2]⟩

/-! ## One line per set -/

theorem repeat_hits (A : Nat) : ∀ (n : Nat) (Cache : cache) (par : cache_param_t),
    1 ≤ par.s → par.s + par.b ≤ 63 → 1 ≤ par.E → Inv par.s par.E Cache →
    ∃ par1 Cache1 parn Cachen, run Cache par A = some (par1, Cache1) ∧
      runAll Cache1 par1 (List.replicate n A) = some (parn, Cachen) ∧
      parn.hits = par1.hits + (n : Nat) ∧ parn.misses = par1.misses ∧
      parn.evictions = par1.evictions := by
  intro n
  induction n with
  | zero =>
    intro Cache par hs hsb hE hinv
    obtain ⟨p1, c1, hr, _⟩ := run_inv Cache par A hs hsb hE hinv
    exact ⟨p1, c1, p1, c1, hr, rfl, by simp, rfl, rfl⟩
  | succ n ih =>
    intro Cache par hs hsb hE hinv
    obtain ⟨p1, c1, p2, c2, hr1, hr2, eh, em, ee⟩ := run_twice Cache par A hs hsb hE hinv
    obtain ⟨p1', c1', hr1', hinv1, e1, e2, e3⟩ := run_inv Cache par A hs hsb hE hinv
    rw [hr1] at hr1'
    cases hr1'
    obtain ⟨q1, d1, qn, dn, hq, hqn, fh, fm, fe⟩ := ih c1 p1 (by omega) (by omega) (by omega)
      (by rw [e1, e3]; exact hinv1)
    rw [hr2] at hq
    cases hq
    refine ⟨p1, c1, qn, dn, hr1, ?_, ?_, by omega, by omega⟩
    · rw [List.replicate_succ, runAll_cons _ _ _ _ _ _ hr2]; exact hqn
    · rw [fh, eh]; push_cast; ring

theorem initCache_target (s E B si : Nat) (hsl : si < 2 ^ s) :
    (initCache (2 ^ s) E B).Sets[si]? = some ⟨filledLines E []⟩ := by
  simp only [initCache]
  rw [List.getElem?_replicate, if_pos hsl, filledLines_nil]

theorem dm_step (Cache : cache) (par : cache_param_t) (Y ty tx si : Nat) (u : Int)
    (hE : par.E = 1) (ht : inputTag par Y = some ty) (hsi : setIndex par Y = some si)
    (hqs : Cache.Sets[si]? = some ⟨[⟨u, true, tx⟩]⟩) (hne : ty ≠ tx) :
    ∃ u1 : Int, run Cache par Y =
      some ({ par with misses := par.misses + 1, evictions := par.evictions + 1 },
        ⟨Cache.Sets.set si ⟨[⟨u1, true, ty⟩]⟩⟩) := by
  rcases run_cases Cache par Y ty si ⟨[⟨u, true, tx⟩]⟩ (by omega) ht hsi hqs
      (by simp [hE]) with
    ⟨hpos, _⟩ | ⟨_, _, k, lk, mx, _, hlk, hr⟩ | ⟨_, k, lk, _, _, _, _, hlk, hlkv, _, _⟩
  · simp [isHit, hne.symm] at hpos
  · simp only [] at hlk hr
    have hk : k = 0 := by
      have := getElem?_lt _ _ _ hlk
      simp at this
      exact this
    subst hk
    simp only [List.getElem?_cons_zero, Option.some.injEq] at hlk
    subst hlk
    exact ⟨wrap32 (mx + 1), hr⟩
  · simp only [] at hlk
    have hk : k = 0 := by
      have := getElem?_lt _ _ _ hlk
      simp at this
      exact this
    subst hk
    simp only [List.getElem?_cons_zero, Option.some.injEq] at hlk
    subst hlk
    simp at hlkv

theorem alt_all (si : Nat) : ∀ (n X Y : Nat) (Cache : cache) (par : cache_param_t)
    (u : Int) (tx ty : Nat), par.E = 1 →
    inputTag par X = some tx → inputTag par Y = some ty → tx ≠ ty →
    setIndex par X = some si → setIndex par Y = some si →
    Cache.Sets[si]? = some ⟨[⟨u, true, ty⟩]⟩ →
    ∃ par1 Cache1, runAll Cache par (altSeq n X Y) = some (par1, Cache1) ∧
      par1.misses = par.misses + (n : Nat) ∧ par1.evictions = par.evictions + (n : Nat) ∧
      par1.hits = par.hits := by
  intro n
  induction n with
  | zero =>
    intro X Y Cache par u tx ty _ _ _ _ _ _ _
    exact ⟨par, Cache, rfl, by simp, by simp, rfl⟩
  | succ n ih =>
    intro X Y Cache par u tx ty hE htx hty hne hsx hsy hqs
    obtain ⟨u1, hr⟩ := dm_step Cache par X tx ty si u hE htx hsx hqs hne
    have hsl : si < Cache.Sets.length := getElem?_lt _ _ _ hqs
    obtain ⟨p2, c2, hr2, hm, he, hh⟩ := ih Y X
      ⟨Cache.Sets.set si ⟨[⟨u1, true, tx⟩]⟩⟩
      { par with misses := par.misses + 1, evictions := par.evictions + 1 }
      u1 ty tx hE hty htx hne.symm hsy hsx (List.getElem?_set_self hsl)
    refine ⟨p2, c2, ?_, ?_, ?_, hh⟩
    · show runAll Cache par (X :: altSeq n Y X) = _
      rw [runAll_cons _ _ _ _ _ _ hr]; exact hr2
    · rw [hm]; push_cast; ring
    · rw [he]; push_cast; ring

/-- C12, counterexample: with one set (`s = 0`) and one line, `b = 4` or `b = 0`, the
first access of `run` on the fresh cache has no defined result: the set index is
`temp >> (tagSize + b)` with `tagSize + b = 64`, an undefined shift.  The check of `main`
rejects `s = 0`, so `main` never calls `run` with such a geometry. -/
theorem C12_one_set_undefined :
    tagSize (initPar 0 4 1) + 4 = 64 ∧
    setIndex (initPar 0 4 1) 0x10 = none ∧
    run (initCache (2 ^ 0) 1 (2 ^ 4)) (initPar 0 4 1) 0x10 = none ∧
    run (initCache (2 ^ 0) 1 (2 ^ 0)) (initPar 0 0 1) 0x10 = none ∧
    missingArgument 0 1 4 (some "a.trace") = true := by
  decide

/-- C12, amended: for `s ≥ 1`, `s + b ≤ 63`, one line per set (`E = 1`) and the fresh
cache: (i) `n + 1` accesses of `run` to the same address return with one miss, `n` hits
and no eviction; as this holds for every `n`, the first access misses and every later
one hits; (ii) `n + 1` accesses that alternate between two addresses of the same set
whose tags differ return with `n + 1` misses, no hit and `n` evictions: every access
misses and every access after the first evicts. -/
theorem C12_direct_mapped (par : cache_param_t) (A B si n : Nat)
    (hs : 1 ≤ par.s) (hsb : par.s + par.b ≤ 63) (hE : par.E = 1)
    (hA : setIndex par A = some si) (hB : setIndex par B = some si)
    (htag : inputTag par A ≠ inputTag par B) :
    (∃ par1 Cache1,
      runAll (initCache (2 ^ par.s) par.E (2 ^ par.b)) par (List.replicate (n + 1) A) =
        some (par1, Cache1) ∧
      par1.misses = par.misses + 1 ∧ par1.hits = par.hits + (n : Nat) ∧
      par1.evictions = par.evictions) ∧
    (∃ par2 Cache2,
      runAll (initCache (2 ^ par.s) par.E (2 ^ par.b)) par (altSeq (n + 1) A B) =
        some (par2, Cache2) ∧
      par2.misses = par.misses + ((n + 1 : Nat) : Int) ∧ par2.hits = par.hits ∧
      par2.evictions = par.evictions + (n : Nat)) := by
  have hE1 : 1 ≤ par.E := by omega
  have hinv := initCache_inv par.s par.E (2 ^ par.b)
  obtain ⟨c0, hfresh⟩ := run_fresh par A (2 ^ par.b) hs hsb hE1
  constructor
  · obtain ⟨p1, c1, pn, cn, hr, hrn, eh, em, ee⟩ :=
      repeat_hits A n (initCache (2 ^ par.s) par.E (2 ^ par.b)) par hs hsb hE1 hinv
    rw [hfresh] at hr
    cases hr
    refine ⟨pn, cn, ?_, em, eh, ee⟩
    rw [List.replicate_succ, runAll_cons _ _ _ _ _ _ hfresh]
    exact hrn
  · have hsl : si < 2 ^ par.s := by
      rw [setIndex_eq par A hs hsb] at hA
      cases hA
      exact Nat.mod_lt _ (by positivity)
    have htA := inputTag_eq par A hsb
    have htB := inputTag_eq par B hsb
    have hne : B / 2 ^ (par.s + par.b) ≠ A / 2 ^ (par.s + par.b) := by
      intro h
      apply htag
      rw [htA, htB, h]
    have hfill := fill_step (initCache (2 ^ par.s) par.E (2 ^ par.b)) par A
      (A / 2 ^ (par.s + par.b)) si [] hE1 htA hA (initCache_target _ _ _ _ hsl)
      (by simp; omega) (by simp) (by omega)
    have hlines : filledLines par.E ([] ++ [A / 2 ^ (par.s + par.b)]) =
        [⟨1, true, A / 2 ^ (par.s + par.b)⟩] := by
      rw [hE]; rfl
    rw [hlines] at hfill
    have hlen0 : (initCache (2 ^ par.s) par.E (2 ^ par.b)).Sets.length = 2 ^ par.s := by
      simp [initCache]
    obtain ⟨p2, c2, hr2, hm, he, hh⟩ := alt_all si n B A
      ⟨(initCache (2 ^ par.s) par.E (2 ^ par.b)).Sets.set si
        ⟨[⟨1, true, A / 2 ^ (par.s + par.b)⟩]⟩⟩
      { par with misses := par.misses + 1 } 1 (B / 2 ^ (par.s + par.b))
      (A / 2 ^ (par.s + par.b)) hE htB htA hne hB hA
      (List.getElem?_set_self (by rw [hlen0]; exact hsl))
    refine ⟨p2, c2, ?_, ?_, hh, ?_⟩
    · show runAll _ par (A :: altSeq n B A) = _
      rw [runAll_cons _ _ _ _ _ _ hfill]; exact hr2
    · rw [hm]; push_cast; ring
    · rw [he]

theorem C12_direct_mapped_witness :
    (1 ≤ (initPar 1 1 1).s ∧ (initPar 1 1 1).s + (initPar 1 1 1).b ≤ 63 ∧
      (initPar 1 1 1).E = 1 ∧ setIndex (initPar 1 1 1) 0x10 = some 0 ∧
      setIndex (initPar 1 1 1) 0x20 = some 0 ∧
      inputTag (initPar 1 1 1) 0x10 ≠ inputTag (initPar 1 1 1) 0x20) ∧
    (∃ par1 Cache1,
      runAll (initCache (2 ^ (initPar 1 1 1).s) (initPar 1 1 1).E (2 ^ (initPar 1 1 1).b))
          (initPar 1 1 1) (List.replicate (2 + 1) 0x10) = some (par1, Cache1) ∧
      par1.misses = (initPar 1 1 1).misses + 1 ∧
      par1.hits = (initPar 1 1 1).hits + ((2 : Nat) : Int) ∧
      par1.evictions = (initPar 1 1 1).evictions) ∧
    (∃ par2 Cache2,
      runAll (initCache (2 ^ (initPar 1 1 1).s) (initPar 1 1 1).E (2 ^ (initPar 1 1 1).b))
          (initPar 1 1 1) (altSeq (2 + 1) 0x10 0x20) = some (par2, Cache2) ∧
      par2.misses = (initPar 1 1 1).misses + ((2 + 1 : Nat) : Int) ∧
      par2.hits = (initPar 1 1 1).hits ∧
      par2.evictions = (initPar 1 1 1).evictions + ((2 : Nat) : Int)) :=
  ⟨by decide, C12_direct_mapped (initPar 1 1 1) 0x10 0x20 0 2 (by decide) (by decide)
    (by decide) (by decide) (by decide) (by decide)⟩

end CSim
